import Mathlib

/-!
# Verification of the ChainUp custody Rust SDK crypto transport layer

Shallow embedding of the SDK's cryptographic transport core
(`src/crypto.rs`, `src/mpc/sign_util.rs`, `src/mpc/api/base_api.rs`)
and proofs about the spec's claims about it.

Bytes are modelled as `Nat` values `< 256`, byte strings as `List Nat`,
big integers (num-bigint `BigUint`) as `Nat`, and fallible Rust
functions returning `Result` as `Except String`.
-/

namespace ChainUpSdk

/-! ### Reduction lemmas for `Except` (Rust `Result`) -/

@[simp] theorem okBind {α β ε : Type _} (a : α) (f : α → Except ε β) :
    (Except.ok a : Except ε α) >>= f = f a := rfl

@[simp] theorem errorBind {α β ε : Type _} (e : ε) (f : α → Except ε β) :
    (Except.error e : Except ε α) >>= f = Except.error e := rfl

@[simp] theorem exceptMapOk {α β ε : Type _} (f : α → β) (a : α) :
    Except.map f (Except.ok a : Except ε α) = .ok (f a) := rfl

@[simp] theorem exceptMapError {α β ε : Type _} (f : α → β) (e : ε) :
    Except.map f (Except.error e : Except ε α) = .error e := rfl

instance {ε α : Type _} [DecidableEq ε] [DecidableEq α] : DecidableEq (Except ε α) :=
  fun x y =>
  match x, y with
  | .ok a, .ok b => decidable_of_iff (a = b) (by simp)
  | .error e, .error f => decidable_of_iff (e = f) (by simp)
  | .ok _, .error _ => isFalse (by simp)
  | .error _, .ok _ => isFalse (by simp)

/-! ## Big-endian byte serialization (num-bigint `from_bytes_be` / `to_bytes_be`) -/

/-- `BigUint::from_bytes_be`: interpret a byte string as a big-endian unsigned
integer (the empty string denotes zero). -/
def fromBytesBE : List Nat → Nat
  | [] => 0
  | b :: rest => b * 256 ^ rest.length + fromBytesBE rest

/-- Helper for `toBytesBE`; `fuel` bounds the recursion depth (any
`fuel ≥ n` produces the minimal big-endian digit string of `n`). -/
def toBytesBEAux : Nat → Nat → List Nat
  | 0, _ => []
  | fuel + 1, n => if n = 0 then [] else toBytesBEAux fuel (n / 256) ++ [n % 256]

/-- `BigUint::to_bytes_be`: minimal big-endian byte representation;
num-bigint returns `[0]` for zero. -/
def toBytesBE (n : Nat) : List Nat :=
  if n = 0 then [0] else toBytesBEAux n n

/-- Left-pad a byte string with zero bytes up to width `w` (the
`while encrypted_bytes.len() < key_size { insert(0, 0) }` loop and the
`vec![0u8; key_size - len]` prefix in `crypto.rs`). -/
def leftPad (w : Nat) (l : List Nat) : List Nat :=
  List.replicate (w - l.length) 0 ++ l

/-- `RsaPrivateKey::size()` / `RsaPublicKey::size()`: the modulus size in
bytes. -/
def keySize (n : Nat) : Nat := (toBytesBE n).length

/-! ## Modular exponentiation (num-bigint `BigUint::modpow`) -/

/-- Binary modular exponentiation; `fuel` bounds the number of exponent
halvings (any `fuel ≥ e` computes `b ^ e % n`). -/
def modpowAux (n : Nat) : Nat → Nat → Nat → Nat
  | 0, _, _ => 1 % n
  | fuel + 1, b, e =>
    if e = 0 then 1 % n
    else
      let r := modpowAux n fuel (b * b % n) (e / 2)
      if e % 2 = 1 then r * b % n else r

/-- `BigUint::modpow(e, n)`: `b ^ e mod n`. -/
def modpow (b e n : Nat) : Nat := modpowAux n e b e

/-! ## Chunk splitting (the `while offset < input_len` loops in `crypto.rs`) -/

/-- Helper for `splitChunks`; `fuel` bounds the recursion depth. -/
def splitChunksAux (maxBlock : Nat) : Nat → List Nat → List (List Nat)
  | 0, _ => []
  | fuel + 1, data =>
    if data.isEmpty then []
    else data.take maxBlock :: splitChunksAux maxBlock fuel (data.drop maxBlock)

/-- Split a byte string into consecutive chunks of at most `maxBlock` bytes
(each loop iteration takes `min(maxBlock, remaining)` bytes). -/
def splitChunks (maxBlock : Nat) (data : List Nat) : List (List Nat) :=
  splitChunksAux maxBlock data.length data

/-! ### Lemmas about byte serialization -/

theorem fromBytesBE_append (l₁ l₂ : List Nat) :
    fromBytesBE (l₁ ++ l₂) = fromBytesBE l₁ * 256 ^ l₂.length + fromBytesBE l₂ := by
  induction l₁ with
  | nil => simp [fromBytesBE]
  | cons b rest ih =>
    simp only [List.cons_append, fromBytesBE, ih, List.append_eq, List.length_append]
    ring

theorem fromBytesBE_lt (l : List Nat) (h : ∀ b ∈ l, b < 256) :
    fromBytesBE l < 256 ^ l.length := by
  induction l with
  | nil => simp [fromBytesBE]
  | cons b rest ih =>
    have hb : b < 256 := h b (by simp)
    have hr : fromBytesBE rest < 256 ^ rest.length := ih fun x hx => h x (by simp [hx])
    have hb' : b + 1 ≤ 256 := hb
    calc fromBytesBE (b :: rest) = b * 256 ^ rest.length + fromBytesBE rest := rfl
      _ < b * 256 ^ rest.length + 256 ^ rest.length := by omega
      _ = (b + 1) * 256 ^ rest.length := by ring
      _ ≤ 256 * 256 ^ rest.length := Nat.mul_le_mul_right _ hb'
      _ = 256 ^ (b :: rest).length := by rw [List.length_cons]; ring

/-- Byte strings of equal length with in-range bytes are determined by their
big-endian value. -/
theorem fromBytesBE_inj (l₁ l₂ : List Nat) (hlen : l₁.length = l₂.length)
    (h₁ : ∀ b ∈ l₁, b < 256) (h₂ : ∀ b ∈ l₂, b < 256)
    (hv : fromBytesBE l₁ = fromBytesBE l₂) : l₁ = l₂ := by
  induction l₁ generalizing l₂ with
  | nil => cases l₂ with
    | nil => rfl
    | cons b rest => simp at hlen
  | cons b rest ih =>
    cases l₂ with
    | nil => simp at hlen
    | cons b' rest' =>
      simp only [List.length_cons, Nat.succ_inj] at hlen
      have hr : fromBytesBE rest < 256 ^ rest.length :=
        fromBytesBE_lt rest fun x hx => h₁ x (by simp [hx])
      have hr' : fromBytesBE rest' < 256 ^ rest'.length :=
        fromBytesBE_lt rest' fun x hx => h₂ x (by simp [hx])
      simp only [fromBytesBE, hlen] at hv
      rw [hlen] at hr
      have hbb : b = b' := by
        rcases Nat.lt_trichotomy b b' with h | h | h
        · exfalso
          have : (b + 1) * 256 ^ rest'.length ≤ b' * 256 ^ rest'.length :=
            Nat.mul_le_mul_right _ h
          nlinarith
        · exact h
        · exfalso
          have : (b' + 1) * 256 ^ rest'.length ≤ b * 256 ^ rest'.length :=
            Nat.mul_le_mul_right _ h
          nlinarith
      subst hbb
      have hrest : fromBytesBE rest = fromBytesBE rest' := by omega
      rw [ih rest' hlen (fun x hx => h₁ x (by simp [hx]))
        (fun x hx => h₂ x (by simp [hx])) hrest]

theorem toBytesBEAux_spec (fuel n : Nat) (h : n ≤ fuel) :
    fromBytesBE (toBytesBEAux fuel n) = n ∧
    (∀ b ∈ toBytesBEAux fuel n, b < 256) ∧
    (∀ j, n < 256 ^ j → (toBytesBEAux fuel n).length ≤ j) := by
  induction fuel generalizing n with
  | zero =>
    interval_cases n
    simp [toBytesBEAux, fromBytesBE]
  | succ fuel ih =>
    by_cases hn : n = 0
    · subst hn; simp [toBytesBEAux, fromBytesBE]
    · have hdiv : n / 256 ≤ fuel := by
        have := Nat.div_le_self n 256
        have : n / 256 < n := Nat.div_lt_self (Nat.pos_of_ne_zero hn) (by norm_num)
        omega
      obtain ⟨ihv, ihb, ihl⟩ := ih (n / 256) hdiv
      refine ⟨?_, ?_, ?_⟩
      · simp only [toBytesBEAux, if_neg hn, fromBytesBE_append, ihv, fromBytesBE,
          List.length_cons, List.length_nil, pow_one, Nat.mul_zero, pow_zero,
          Nat.mul_one, Nat.add_zero]
        omega
      · intro b hb
        simp only [toBytesBEAux, if_neg hn, List.mem_append, List.mem_cons] at hb
        rcases hb with hb | hb
        · exact ihb b hb
        · rcases hb with hb | hb
          · subst hb; exact Nat.mod_lt _ (by norm_num)
          · simp at hb
      · intro j hj
        simp only [toBytesBEAux, if_neg hn, List.length_append, List.length_cons,
          List.length_nil]
        cases j with
        | zero => simp at hj; omega
        | succ j =>
          have : n / 256 < 256 ^ j := by
            rw [Nat.div_lt_iff_lt_mul (by norm_num)]
            calc n < 256 ^ (j + 1) := hj
              _ = 256 ^ j * 256 := by ring
          have := ihl j this
          omega

theorem fromBytesBE_toBytesBE (n : Nat) : fromBytesBE (toBytesBE n) = n := by
  unfold toBytesBE
  by_cases hn : n = 0
  · simp [hn, fromBytesBE]
  · rw [if_neg hn]; exact (toBytesBEAux_spec n n le_rfl).1

theorem toBytesBE_bytes_lt (n : Nat) : ∀ b ∈ toBytesBE n, b < 256 := by
  unfold toBytesBE
  by_cases hn : n = 0
  · simp [hn]
  · rw [if_neg hn]; exact (toBytesBEAux_spec n n le_rfl).2.1

theorem toBytesBE_length_le (n j : Nat) (hj : 1 ≤ j) (h : n < 256 ^ j) :
    (toBytesBE n).length ≤ j := by
  unfold toBytesBE
  by_cases hn : n = 0
  · simp [hn]; omega
  · rw [if_neg hn]; exact (toBytesBEAux_spec n n le_rfl).2.2 j h

/-! ### Lemmas about `leftPad` -/

theorem fromBytesBE_replicate_zero (k : Nat) (l : List Nat) :
    fromBytesBE (List.replicate k 0 ++ l) = fromBytesBE l := by
  induction k with
  | zero => simp
  | succ k ih =>
    rw [List.replicate_succ, List.cons_append]
    show 0 * 256 ^ (List.replicate k 0 ++ l).length + fromBytesBE (List.replicate k 0 ++ l) =
      fromBytesBE l
    rw [ih]; omega

theorem fromBytesBE_leftPad (w : Nat) (l : List Nat) :
    fromBytesBE (leftPad w l) = fromBytesBE l :=
  fromBytesBE_replicate_zero _ l

theorem leftPad_length (w : Nat) (l : List Nat) (h : l.length ≤ w) :
    (leftPad w l).length = w := by
  simp [leftPad]; omega

theorem leftPad_bytes_lt (w : Nat) (l : List Nat) (h : ∀ b ∈ l, b < 256) :
    ∀ b ∈ leftPad w l, b < 256 := by
  intro b hb
  simp only [leftPad, List.mem_append, List.mem_replicate] at hb
  rcases hb with hb | hb
  · omega
  · exact h b hb

/-- Serializing an integer to exactly `w` bytes. -/
theorem leftPad_toBytesBE_spec (w n : Nat) (hw : 1 ≤ w) (h : n < 256 ^ w) :
    (leftPad w (toBytesBE n)).length = w ∧
    (∀ b ∈ leftPad w (toBytesBE n), b < 256) ∧
    fromBytesBE (leftPad w (toBytesBE n)) = n :=
  ⟨leftPad_length w _ (toBytesBE_length_le n w hw h),
   leftPad_bytes_lt w _ (toBytesBE_bytes_lt n),
   by rw [fromBytesBE_leftPad, fromBytesBE_toBytesBE]⟩

/-- The inverse direction: a `w`-byte string is recovered from its value. -/
theorem leftPad_toBytesBE_fromBytesBE (l : List Nat) (h : ∀ b ∈ l, b < 256)
    (hw : 1 ≤ l.length) :
    leftPad l.length (toBytesBE (fromBytesBE l)) = l := by
  have hv := fromBytesBE_lt l h
  obtain ⟨h1, h2, h3⟩ := leftPad_toBytesBE_spec l.length (fromBytesBE l) hw hv
  exact fromBytesBE_inj _ l (by rw [h1]) h2 h h3

/-! ### Lemmas about `modpow` -/

theorem modpowAux_spec (n : Nat) (hn : 0 < n) :
    ∀ fuel b e, e ≤ fuel → modpowAux n fuel b e = b ^ e % n := by
  intro fuel
  induction fuel with
  | zero =>
    intro b e he
    interval_cases e
    simp [modpowAux]
  | succ fuel ih =>
    intro b e he
    unfold modpowAux
    by_cases he0 : e = 0
    · simp [he0]
    · rw [if_neg he0]
      have hhalf : e / 2 ≤ fuel := by omega
      have key : (b * b % n) ^ (e / 2) % n = b ^ (2 * (e / 2)) % n := by
        rw [Nat.pow_mod, Nat.mod_mod_of_dvd _ dvd_rfl, ← Nat.pow_mod, ← pow_two, ← pow_mul]
      simp only [ih (b * b % n) (e / 2) hhalf, key]
      by_cases hpar : e % 2 = 1
      · simp only [if_pos hpar]
        rw [Nat.mod_mul_mod]
        congr 1
        conv_rhs => rw [show e = 2 * (e / 2) + 1 by omega]
        rw [pow_succ]
      · simp only [if_neg hpar]
        congr 2
        omega

theorem modpow_eq (b e n : Nat) (hn : 0 < n) : modpow b e n = b ^ e % n :=
  modpowAux_spec n hn e b e le_rfl

theorem modpow_lt (b e n : Nat) (hn : 0 < n) : modpow b e n < n := by
  rw [modpow_eq b e n hn]; exact Nat.mod_lt _ hn

/-! ### Lemmas about `splitChunks` -/

theorem splitChunksAux_join (m : Nat) (hm : 1 ≤ m) :
    ∀ fuel data, data.length ≤ fuel → (splitChunksAux m fuel data).flatten = data := by
  intro fuel
  induction fuel with
  | zero =>
    intro data h
    have : data = [] := List.eq_nil_of_length_eq_zero (by omega)
    simp [this, splitChunksAux]
  | succ fuel ih =>
    intro data h
    unfold splitChunksAux
    by_cases hd : data.isEmpty
    · simp_all [List.isEmpty_iff]
    · rw [if_neg hd]
      have hne : data ≠ [] := by simpa [List.isEmpty_iff] using hd
      have hlen : (data.drop m).length ≤ fuel := by
        rw [List.length_drop]
        have : 1 ≤ data.length := List.length_pos.mpr hne
        omega
      simp [List.flatten_cons, ih (data.drop m) hlen]

theorem splitChunks_join (m : Nat) (hm : 1 ≤ m) (data : List Nat) :
    (splitChunks m data).flatten = data :=
  splitChunksAux_join m hm data.length data le_rfl

/-- Splitting a concatenation of `m`-byte blocks recovers the blocks. -/
theorem splitChunksAux_flatten_blocks (m : Nat) (hm : 1 ≤ m) :
    ∀ (blocks : List (List Nat)) fuel, blocks.flatten.length ≤ fuel →
      (∀ b ∈ blocks, b.length = m) →
      splitChunksAux m fuel blocks.flatten = blocks := by
  intro blocks
  induction blocks with
  | nil =>
    intro fuel _ _
    cases fuel <;> simp [splitChunksAux]
  | cons b rest ih =>
    intro fuel hfuel hlens
    have hb : b.length = m := hlens b (by simp)
    have hbne : ¬ (b ++ rest.flatten).isEmpty = true := by
      simp only [List.isEmpty_iff, List.append_eq_nil]
      rintro ⟨h1, -⟩
      rw [h1] at hb
      simp at hb
      omega
    cases fuel with
    | zero =>
      exfalso
      simp only [List.flatten_cons, List.length_append] at hfuel
      omega
    | succ fuel =>
      simp only [List.flatten_cons, splitChunksAux, if_neg hbne]
      rw [List.take_left' hb, List.drop_left' hb]
      congr 1
      apply ih fuel _ (fun x hx => hlens x (by simp [hx]))
      simp only [List.flatten_cons, List.length_append] at hfuel
      omega

theorem splitChunks_flatten_blocks (m : Nat) (hm : 1 ≤ m) (blocks : List (List Nat))
    (hlens : ∀ b ∈ blocks, b.length = m) :
    splitChunks m blocks.flatten = blocks :=
  splitChunksAux_flatten_blocks m hm blocks _ le_rfl hlens

/-! ## Base64 (the `base64` crate engines used in `crypto.rs`)

Characters are modelled by their ASCII codes. `URL_SAFE_NO_PAD` is used for
transport ciphertext, `STANDARD` (with `=` padding) for signatures. -/

/-- The URL-safe base64 alphabet (`A-Z a-z 0-9 - _`). -/
def b64UrlChar (i : Nat) : Nat :=
  if i < 26 then 65 + i
  else if i < 52 then 97 + (i - 26)
  else if i < 62 then 48 + (i - 52)
  else if i = 62 then 45
  else 95

/-- The standard base64 alphabet (`A-Z a-z 0-9 + /`). -/
def b64StdChar (i : Nat) : Nat :=
  if i < 26 then 65 + i
  else if i < 52 then 97 + (i - 26)
  else if i < 62 then 48 + (i - 52)
  else if i = 62 then 43
  else 47

/-- Inverse of the URL-safe alphabet; `none` for a character outside it. -/
def b64UrlVal (c : Nat) : Option Nat :=
  if 65 ≤ c ∧ c ≤ 90 then some (c - 65)
  else if 97 ≤ c ∧ c ≤ 122 then some (c - 97 + 26)
  else if 48 ≤ c ∧ c ≤ 57 then some (c - 48 + 52)
  else if c = 45 then some 62
  else if c = 95 then some 63
  else none

/-- Inverse of the standard alphabet; `none` for a character outside it. -/
def b64StdVal (c : Nat) : Option Nat :=
  if 65 ≤ c ∧ c ≤ 90 then some (c - 65)
  else if 97 ≤ c ∧ c ≤ 122 then some (c - 97 + 26)
  else if 48 ≤ c ∧ c ≤ 57 then some (c - 48 + 52)
  else if c = 43 then some 62
  else if c = 47 then some 63
  else none

/-- Encode bytes to base64 characters via the given alphabet, without
padding characters. -/
def b64EncodeCore (alpha : Nat → Nat) : List Nat → List Nat
  | [] => []
  | [b1] => [alpha (b1 / 4), alpha (b1 % 4 * 16)]
  | [b1, b2] => [alpha (b1 / 4), alpha (b1 % 4 * 16 + b2 / 16), alpha (b2 % 16 * 4)]
  | b1 :: b2 :: b3 :: rest =>
    alpha (b1 / 4) :: alpha (b1 % 4 * 16 + b2 / 16) ::
      alpha (b2 % 16 * 4 + b3 / 64) :: alpha (b3 % 64) :: b64EncodeCore alpha rest

/-- `URL_SAFE_NO_PAD.encode`. -/
def b64UrlEncode (bytes : List Nat) : List Nat := b64EncodeCore b64UrlChar bytes

/-- `STANDARD.encode`: core encoding followed by `=` padding (`=` is ASCII 61). -/
def b64StdEncode (bytes : List Nat) : List Nat :=
  b64EncodeCore b64StdChar bytes ++ List.replicate ((3 - bytes.length % 3) % 3) 61

/-- Decode a list of sextet values back to bytes, rejecting an impossible
length remainder of 1 and non-zero trailing bits (the engines are strict). -/
def b64DecodeQuads : List Nat → Except String (List Nat)
  | [] => .ok []
  | [_] => .error "Invalid input length"
  | [s1, s2] =>
    if s2 % 16 = 0 then .ok [s1 * 4 + s2 / 16] else .error "Invalid trailing bits"
  | [s1, s2, s3] =>
    if s3 % 4 = 0 then .ok [s1 * 4 + s2 / 16, s2 % 16 * 16 + s3 / 4]
    else .error "Invalid trailing bits"
  | s1 :: s2 :: s3 :: s4 :: rest => do
    let tail ← b64DecodeQuads rest
    .ok ([s1 * 4 + s2 / 16, s2 % 16 * 16 + s3 / 4, s3 % 4 * 64 + s4] ++ tail)

/-- Translate characters to sextet values, failing on a character outside the
alphabet. -/
def b64Vals (val : Nat → Option Nat) : List Nat → Except String (List Nat)
  | [] => .ok []
  | c :: rest =>
    match val c with
    | none => .error "Invalid byte"
    | some v => do
      let tail ← b64Vals val rest
      .ok (v :: tail)

/-- `URL_SAFE_NO_PAD.decode` (strict: no `=` accepted, canonical trailing bits). -/
def b64UrlDecode (chars : List Nat) : Except String (List Nat) := do
  b64DecodeQuads (← b64Vals b64UrlVal chars)

/-- Decode with canonical `=` padding required: total length a multiple of
four with `=` (ASCII 61) only in the final quantum. -/
def b64PadDecode (val : Nat → Option Nat) : List Nat → Except String (List Nat)
  | [] => .ok []
  | [c1, c2, c3, c4] =>
    if c4 = 61 then
      if c3 = 61 then do b64DecodeQuads (← b64Vals val [c1, c2])
      else do b64DecodeQuads (← b64Vals val [c1, c2, c3])
    else do b64DecodeQuads (← b64Vals val [c1, c2, c3, c4])
  | c1 :: c2 :: c3 :: c4 :: rest => do
    let front ← b64DecodeQuads (← b64Vals val [c1, c2, c3, c4])
    let tail ← b64PadDecode val rest
    .ok (front ++ tail)
  | _ => .error "Invalid padding"

/-- `STANDARD.decode`. -/
def b64StdDecode (chars : List Nat) : Except String (List Nat) :=
  b64PadDecode b64StdVal chars

/-! ### Base64 roundtrip lemmas -/

theorem b64UrlVal_b64UrlChar (i : Nat) (h : i < 64) :
    b64UrlVal (b64UrlChar i) = some i := by
  unfold b64UrlChar b64UrlVal
  interval_cases i <;> norm_num

theorem b64StdVal_b64StdChar (i : Nat) (h : i < 64) :
    b64StdVal (b64StdChar i) = some i := by
  unfold b64StdChar b64StdVal
  interval_cases i <;> norm_num

theorem b64Vals_append (val : Nat → Option Nat) (l₁ l₂ v₁ : List Nat)
    (h₁ : b64Vals val l₁ = .ok v₁) :
    b64Vals val (l₁ ++ l₂) = (b64Vals val l₂).map (fun tail => v₁ ++ tail) := by
  induction l₁ generalizing v₁ with
  | nil =>
    simp only [b64Vals] at h₁
    cases h₁
    simp only [List.nil_append]
    cases b64Vals val l₂ <;> simp [Except.map]
  | cons c rest ih =>
    simp only [b64Vals, List.cons_append, List.append_eq] at h₁ ⊢
    cases hc : val c with
    | none => simp [hc] at h₁
    | some v =>
      simp only [hc] at h₁ ⊢
      cases hr : b64Vals val rest with
      | error e => simp [hr] at h₁
      | ok tail =>
        simp only [hr, okBind, Except.ok.injEq] at h₁
        subst h₁
        rw [ih tail hr]
        cases b64Vals val l₂ <;> simp

theorem b64EncodeCore_decode (alpha : Nat → Nat) (val : Nat → Option Nat)
    (hcompat : ∀ i, i < 64 → val (alpha i) = some i) :
    ∀ N l, l.length ≤ N → (∀ b ∈ l, b < 256) →
      ∃ vs, b64Vals val (b64EncodeCore alpha l) = .ok vs ∧
        b64DecodeQuads vs = .ok l := by
  intro N
  induction N with
  | zero =>
    intro l hlen _
    have : l = [] := List.eq_nil_of_length_eq_zero (by omega)
    subst this
    exact ⟨[], by simp [b64EncodeCore, b64Vals], by simp [b64DecodeQuads]⟩
  | succ N ih =>
    intro l hlen hb
    rcases l with _ | ⟨b1, _ | ⟨b2, _ | ⟨b3, rest⟩⟩⟩
    · exact ⟨[], by simp [b64EncodeCore, b64Vals], by simp [b64DecodeQuads]⟩
    · have hb1 : b1 < 256 := hb b1 (by simp)
      have e1 := hcompat (b1 / 4) (by omega)
      have e2 := hcompat (b1 % 4 * 16) (by omega)
      refine ⟨[b1 / 4, b1 % 4 * 16], ?_, ?_⟩
      · simp [b64EncodeCore, b64Vals, e1, e2]
      · have h16 : b1 % 4 * 16 % 16 = 0 := by omega
        simp only [b64DecodeQuads, if_pos h16, Except.ok.injEq]
        congr 1
        omega
    · have hb1 : b1 < 256 := hb b1 (by simp)
      have hb2 : b2 < 256 := hb b2 (by simp)
      have e1 := hcompat (b1 / 4) (by omega)
      have e2 := hcompat (b1 % 4 * 16 + b2 / 16) (by omega)
      have e3 := hcompat (b2 % 16 * 4) (by omega)
      refine ⟨[b1 / 4, b1 % 4 * 16 + b2 / 16, b2 % 16 * 4], ?_, ?_⟩
      · simp [b64EncodeCore, b64Vals, e1, e2, e3]
      · have h4 : b2 % 16 * 4 % 4 = 0 := by omega
        simp only [b64DecodeQuads, if_pos h4, Except.ok.injEq]
        congr 1
        · omega
        · congr 1
          omega
    · have hb1 : b1 < 256 := hb b1 (by simp)
      have hb2 : b2 < 256 := hb b2 (by simp)
      have hb3 : b3 < 256 := hb b3 (by simp)
      have e1 := hcompat (b1 / 4) (by omega)
      have e2 := hcompat (b1 % 4 * 16 + b2 / 16) (by omega)
      have e3 := hcompat (b2 % 16 * 4 + b3 / 64) (by omega)
      have e4 := hcompat (b3 % 64) (by omega)
      have hlrest : rest.length ≤ N := by
        have : rest.length + 3 ≤ N + 1 := by simpa using hlen
        omega
      obtain ⟨vs, hv, hq⟩ := ih rest hlrest fun x hx => hb x (by simp [hx])
      have hfront : b64Vals val [alpha (b1 / 4), alpha (b1 % 4 * 16 + b2 / 16),
          alpha (b2 % 16 * 4 + b3 / 64), alpha (b3 % 64)] =
          .ok [b1 / 4, b1 % 4 * 16 + b2 / 16, b2 % 16 * 4 + b3 / 64, b3 % 64] := by
        simp [b64Vals, e1, e2, e3, e4]
      refine ⟨[b1 / 4, b1 % 4 * 16 + b2 / 16, b2 % 16 * 4 + b3 / 64, b3 % 64] ++ vs, ?_, ?_⟩
      · have : b64EncodeCore alpha (b1 :: b2 :: b3 :: rest) =
            [alpha (b1 / 4), alpha (b1 % 4 * 16 + b2 / 16),
             alpha (b2 % 16 * 4 + b3 / 64), alpha (b3 % 64)] ++ b64EncodeCore alpha rest := rfl
        rw [this, b64Vals_append val _ _ _ hfront, hv]
        rfl
      · have hd1 : b1 / 4 * 4 + (b1 % 4 * 16 + b2 / 16) / 16 = b1 := by omega
        have hd2 : (b1 % 4 * 16 + b2 / 16) % 16 * 16 + (b2 % 16 * 4 + b3 / 64) / 4 = b2 := by
          omega
        have hd3 : (b2 % 16 * 4 + b3 / 64) % 4 * 64 + b3 % 64 = b3 := by omega
        simp [b64DecodeQuads, hq, hd1, hd2, hd3]

/-- `URL_SAFE_NO_PAD` decode is a left inverse of encode. -/
theorem b64UrlDecode_encode (l : List Nat) (h : ∀ b ∈ l, b < 256) :
    b64UrlDecode (b64UrlEncode l) = .ok l := by
  obtain ⟨vs, hv, hq⟩ :=
    b64EncodeCore_decode b64UrlChar b64UrlVal b64UrlVal_b64UrlChar l.length l le_rfl h
  unfold b64UrlDecode b64UrlEncode
  rw [hv]
  simpa using hq

theorem b64StdChar_ne_61 (i : Nat) (h : i < 64) : b64StdChar i ≠ 61 := by
  unfold b64StdChar
  interval_cases i <;> norm_num

theorem b64StdEncode_cons (b : Nat) (l : List Nat) :
    ∃ ys, b64StdEncode (b :: l) = b64StdChar (b / 4) :: ys := by
  rcases l with _ | ⟨c, _ | ⟨d, rest⟩⟩ <;> exact ⟨_, rfl⟩

/-- `STANDARD` decode is a left inverse of encode. -/
theorem b64StdDecode_encode (l : List Nat) (h : ∀ b ∈ l, b < 256) :
    b64StdDecode (b64StdEncode l) = .ok l := by
  suffices H : ∀ N l, l.length ≤ N → (∀ b ∈ l, b < 256) →
      b64StdDecode (b64StdEncode l) = .ok l from H l.length l le_rfl h
  intro N
  induction N with
  | zero =>
    intro l hlen _
    have : l = [] := List.eq_nil_of_length_eq_zero (by omega)
    subst this
    rfl
  | succ N ih =>
    intro l hlen hb
    rcases l with _ | ⟨b1, _ | ⟨b2, _ | ⟨b3, _ | ⟨b4, rest⟩⟩⟩⟩
    · rfl
    · have hb1 : b1 < 256 := hb b1 (by simp)
      have e1 := b64StdVal_b64StdChar (b1 / 4) (by omega)
      have e2 := b64StdVal_b64StdChar (b1 % 4 * 16) (by omega)
      show b64StdDecode [b64StdChar (b1 / 4), b64StdChar (b1 % 4 * 16), 61, 61] = .ok [b1]
      have h16 : b1 % 4 * 16 % 16 = 0 := by omega
      have hd1 : b1 / 4 * 4 + b1 % 4 * 16 / 16 = b1 := by omega
      simp [b64StdDecode, b64PadDecode, b64Vals, e1, e2, b64DecodeQuads, h16, hd1]
      omega
    · have hb1 : b1 < 256 := hb b1 (by simp)
      have hb2 : b2 < 256 := hb b2 (by simp)
      have e1 := b64StdVal_b64StdChar (b1 / 4) (by omega)
      have e2 := b64StdVal_b64StdChar (b1 % 4 * 16 + b2 / 16) (by omega)
      have e3 := b64StdVal_b64StdChar (b2 % 16 * 4) (by omega)
      have hne := b64StdChar_ne_61 (b2 % 16 * 4) (by omega)
      show b64StdDecode [b64StdChar (b1 / 4), b64StdChar (b1 % 4 * 16 + b2 / 16),
        b64StdChar (b2 % 16 * 4), 61] = .ok [b1, b2]
      have h4 : b2 % 16 * 4 % 4 = 0 := by omega
      have hd1 : b1 / 4 * 4 + (b1 % 4 * 16 + b2 / 16) / 16 = b1 := by omega
      have hd2 : (b1 % 4 * 16 + b2 / 16) % 16 * 16 + b2 % 16 * 4 / 4 = b2 := by omega
      simp [b64StdDecode, b64PadDecode, hne, b64Vals, e1, e2, e3, b64DecodeQuads, h4, hd1, hd2]
      omega
    · have hb1 : b1 < 256 := hb b1 (by simp)
      have hb2 : b2 < 256 := hb b2 (by simp)
      have hb3 : b3 < 256 := hb b3 (by simp)
      have e1 := b64StdVal_b64StdChar (b1 / 4) (by omega)
      have e2 := b64StdVal_b64StdChar (b1 % 4 * 16 + b2 / 16) (by omega)
      have e3 := b64StdVal_b64StdChar (b2 % 16 * 4 + b3 / 64) (by omega)
      have e4 := b64StdVal_b64StdChar (b3 % 64) (by omega)
      have hne := b64StdChar_ne_61 (b3 % 64) (by omega)
      have hch : b64StdEncode [b1, b2, b3] = [b64StdChar (b1 / 4),
          b64StdChar (b1 % 4 * 16 + b2 / 16), b64StdChar (b2 % 16 * 4 + b3 / 64),
          b64StdChar (b3 % 64)] := by
        simp [b64StdEncode, b64EncodeCore]
      rw [hch]
      have hd1 : b1 / 4 * 4 + (b1 % 4 * 16 + b2 / 16) / 16 = b1 := by omega
      have hd2 : (b1 % 4 * 16 + b2 / 16) % 16 * 16 + (b2 % 16 * 4 + b3 / 64) / 4 = b2 := by
        omega
      have hd3 : (b2 % 16 * 4 + b3 / 64) % 4 * 64 + b3 % 64 = b3 := by omega
      simp [b64StdDecode, b64PadDecode, hne, b64Vals, e1, e2, e3, e4, b64DecodeQuads, hd1, hd2, hd3]
    · have hb1 : b1 < 256 := hb b1 (by simp)
      have hb2 : b2 < 256 := hb b2 (by simp)
      have hb3 : b3 < 256 := hb b3 (by simp)
      have e1 := b64StdVal_b64StdChar (b1 / 4) (by omega)
      have e2 := b64StdVal_b64StdChar (b1 % 4 * 16 + b2 / 16) (by omega)
      have e3 := b64StdVal_b64StdChar (b2 % 16 * 4 + b3 / 64) (by omega)
      have e4 := b64StdVal_b64StdChar (b3 % 64) (by omega)
      obtain ⟨ys, hys⟩ := b64StdEncode_cons b4 rest
      have hchars : b64StdEncode (b1 :: b2 :: b3 :: b4 :: rest) =
          b64StdChar (b1 / 4) :: b64StdChar (b1 % 4 * 16 + b2 / 16) ::
          b64StdChar (b2 % 16 * 4 + b3 / 64) :: b64StdChar (b3 % 64) ::
          b64StdEncode (b4 :: rest) := by
        unfold b64StdEncode
        have hcore : b64EncodeCore b64StdChar (b1 :: b2 :: b3 :: b4 :: rest) =
            b64StdChar (b1 / 4) :: b64StdChar (b1 % 4 * 16 + b2 / 16) ::
            b64StdChar (b2 % 16 * 4 + b3 / 64) :: b64StdChar (b3 % 64) ::
            b64EncodeCore b64StdChar (b4 :: rest) := rfl
        rw [hcore]
        have hmod : (3 - (b1 :: b2 :: b3 :: b4 :: rest).length % 3) % 3 =
            (3 - (b4 :: rest).length % 3) % 3 := by
          simp only [List.length_cons]
          omega
        rw [hmod]
        rfl
      have hrest : b64StdDecode (b64StdEncode (b4 :: rest)) = .ok (b4 :: rest) := by
        apply ih
        · have : rest.length + 4 ≤ N + 1 := by simpa using hlen
          simp only [List.length_cons]
          omega
        · intro x hx
          exact hb x (by simp at hx ⊢; tauto)
      rw [hchars, hys]
      show (do
        let front ← b64DecodeQuads (← b64Vals b64StdVal [b64StdChar (b1 / 4),
          b64StdChar (b1 % 4 * 16 + b2 / 16), b64StdChar (b2 % 16 * 4 + b3 / 64),
          b64StdChar (b3 % 64)])
        let tail ← b64StdDecode (b64StdChar (b4 / 4) :: ys)
        Except.ok (front ++ tail)) = Except.ok (b1 :: b2 :: b3 :: b4 :: rest)
      rw [← hys, hrest]
      have hd1 : b1 / 4 * 4 + (b1 % 4 * 16 + b2 / 16) / 16 = b1 := by omega
      have hd2 : (b1 % 4 * 16 + b2 / 16) % 16 * 16 + (b2 % 16 * 4 + b3 / 64) / 4 = b2 := by
        omega
      have hd3 : (b2 % 16 * 4 + b3 / 64) % 4 * 64 + b3 % 64 = b3 := by omega
      simp [b64Vals, e1, e2, e3, e4, b64DecodeQuads, hd1, hd2, hd3]

/-! ## Hash functions (the `md5` and `sha2` crates used by `sign`)

Both operate on byte lists; 32-bit words are `Nat` values reduced mod
`2 ^ 32` at every step. -/

/-- 32-bit left rotation. -/
def rotl32 (x n : Nat) : Nat := (x <<< n ||| x >>> (32 - n)) % 4294967296

/-- 32-bit right rotation. -/
def rotr32 (x n : Nat) : Nat := (x >>> n ||| x <<< (32 - n)) % 4294967296

/-- Little-endian serialization of a word to `w` bytes. -/
def toBytesLE : Nat → Nat → List Nat
  | 0, _ => []
  | w + 1, n => n % 256 :: toBytesLE w (n / 256)

/-- Little-endian interpretation of a byte list. -/
def fromBytesLE : List Nat → Nat
  | [] => 0
  | b :: rest => b + 256 * fromBytesLE rest

/-! ### MD5 -/

/-- MD5 per-round constants `⌊|sin(i+1)| · 2³²⌋`. -/
def md5K : List Nat :=
  [3614090360, 3905402710, 606105819, 3250441966, 4118548399, 1200080426, 2821735955,
   4249261313, 1770035416, 2336552879, 4294925233, 2304563134, 1804603682, 4254626195,
   2792965006, 1236535329, 4129170786, 3225465664, 643717713, 3921069994, 3593408605,
   38016083, 3634488961, 3889429448, 568446438, 3275163606, 4107603335, 1163531501,
   2850285829, 4243563512, 1735328473, 2368359562, 4294588738, 2272392833, 1839030562,
   4259657740, 2763975236, 1272893353, 4139469664, 3200236656, 681279174, 3936430074,
   3572445317, 76029189, 3654602809, 3873151461, 530742520, 3299628645, 4096336452,
   1126891415, 2878612391, 4237533241, 1700485571, 2399980690, 4293915773, 2240044497,
   1873313359, 4264355552, 2734768916, 1309151649, 4149444226, 3174756917, 718787259,
   3951481745]

/-- MD5 per-round shift amounts. -/
def md5S : List Nat :=
  [7, 12, 17, 22, 7, 12, 17, 22, 7, 12, 17, 22, 7, 12, 17, 22,
   5, 9, 14, 20, 5, 9, 14, 20, 5, 9, 14, 20, 5, 9, 14, 20,
   4, 11, 16, 23, 4, 11, 16, 23, 4, 11, 16, 23, 4, 11, 16, 23,
   6, 10, 15, 21, 6, 10, 15, 21, 6, 10, 15, 21, 6, 10, 15, 21]

/-- One MD5 round: `i` is the round index, `m` the 16 message words. -/
def md5Round (m : List Nat) (state : Nat × Nat × Nat × Nat) (i : Nat) :
    Nat × Nat × Nat × Nat :=
  let (a, b, c, d) := state
  let f :=
    if i < 16 then b &&& c ||| (4294967295 - b) &&& d
    else if i < 32 then d &&& b ||| (4294967295 - d) &&& c
    else if i < 48 then b ^^^ c ^^^ d
    else c ^^^ (b ||| (4294967295 - d))
  let g :=
    if i < 16 then i
    else if i < 32 then (5 * i + 1) % 16
    else if i < 48 then (3 * i + 5) % 16
    else 7 * i % 16
  let sum := (a + f + md5K.getD i 0 + m.getD g 0) % 4294967296
  let newB := (b + rotl32 sum (md5S.getD i 0)) % 4294967296
  (d, newB, b, c)

/-- MD5 padding: `0x80`, zeros, then the 64-bit little-endian bit length,
to a multiple of 64 bytes. -/
def md5Pad (msg : List Nat) : List Nat :=
  msg ++ [128] ++ List.replicate ((119 - msg.length % 64) % 64) 0 ++
    toBytesLE 8 (msg.length * 8)

/-- Process one 64-byte MD5 block. -/
def md5Block (state : Nat × Nat × Nat × Nat) (block : List Nat) :
    Nat × Nat × Nat × Nat :=
  let m := (splitChunks 4 block).map fromBytesLE
  let (a, b, c, d) := (List.range 64).foldl (md5Round m) state
  let (a0, b0, c0, d0) := state
  ((a0 + a) % 4294967296, (b0 + b) % 4294967296,
   (c0 + c) % 4294967296, (d0 + d) % 4294967296)

/-- `Md5::digest`: the 16-byte MD5 digest of a byte string. -/
def md5 (msg : List Nat) : List Nat :=
  let (a, b, c, d) :=
    (splitChunks 64 (md5Pad msg)).foldl md5Block
      (1732584193, 4023233417, 2562383102, 271733878)
  toBytesLE 4 a ++ toBytesLE 4 b ++ toBytesLE 4 c ++ toBytesLE 4 d

/-! ### SHA-256 -/

/-- SHA-256 round constants. -/
def sha256K : List Nat :=
  [1116352408, 1899447441, 3049323471, 3921009573, 961987163, 1508970993, 2453635748,
   2870763221, 3624381080, 310598401, 607225278, 1426881987, 1925078388, 2162078206,
   2614888103, 3248222580, 3835390401, 4022224774, 264347078, 604807628, 770255983,
   1249150122, 1555081692, 1996064986, 2554220882, 2821834349, 2952996808, 3210313671,
   3336571891, 3584528711, 113926993, 338241895, 666307205, 773529912, 1294757372,
   1396182291, 1695183700, 1986661051, 2177026350, 2456956037, 2730485921, 2820302411,
   3259730800, 3345764771, 3516065817, 3600352804, 4094571909, 275423344, 430227734,
   506948616, 659060556, 883997877, 958139571, 1322822218, 1537002063, 1747873779,
   1955562222, 2024104815, 2227730452, 2361852424, 2428436474, 2756734187, 3204031479,
   3329325298]

/-- SHA-256 padding: `0x80`, zeros, then the 64-bit big-endian bit length,
to a multiple of 64 bytes. -/
def sha256Pad (msg : List Nat) : List Nat :=
  msg ++ [128] ++ List.replicate ((119 - msg.length % 64) % 64) 0 ++
    leftPad 8 (toBytesBE (msg.length * 8))

/-- Message-schedule extension: grow the 16 block words to 64. -/
def sha256Extend (ws : List Nat) : Nat → List Nat
  | 0 => ws
  | steps + 1 =>
    let n := ws.length
    let w15 := ws.getD (n - 15) 0
    let w2 := ws.getD (n - 2) 0
    let s0 := rotr32 w15 7 ^^^ rotr32 w15 18 ^^^ w15 >>> 3
    let s1 := rotr32 w2 17 ^^^ rotr32 w2 19 ^^^ w2 >>> 10
    sha256Extend (ws ++ [(ws.getD (n - 16) 0 + s0 + ws.getD (n - 7) 0 + s1) % 4294967296])
      steps

/-- One SHA-256 compression round on state `(a,…,h)` with word `w` and
constant `k`. -/
def sha256Round (state : Nat × Nat × Nat × Nat × Nat × Nat × Nat × Nat)
    (wk : Nat × Nat) : Nat × Nat × Nat × Nat × Nat × Nat × Nat × Nat :=
  let (a, b, c, d, e, f, g, h) := state
  let (w, k) := wk
  let s1 := rotr32 e 6 ^^^ rotr32 e 11 ^^^ rotr32 e 25
  let ch := e &&& f ^^^ (4294967295 - e) &&& g
  let temp1 := (h + s1 + ch + k + w) % 4294967296
  let s0 := rotr32 a 2 ^^^ rotr32 a 13 ^^^ rotr32 a 22
  let maj := a &&& b ^^^ a &&& c ^^^ b &&& c
  let temp2 := (s0 + maj) % 4294967296
  ((temp1 + temp2) % 4294967296, a, b, c, (d + temp1) % 4294967296, e, f, g)

/-- Process one 64-byte SHA-256 block. -/
def sha256Block (state : Nat × Nat × Nat × Nat × Nat × Nat × Nat × Nat)
    (block : List Nat) : Nat × Nat × Nat × Nat × Nat × Nat × Nat × Nat :=
  let ws := sha256Extend ((splitChunks 4 block).map fromBytesBE) 48
  let (a, b, c, d, e, f, g, h) := (ws.zip sha256K).foldl sha256Round state
  let (a0, b0, c0, d0, e0, f0, g0, h0) := state
  ((a0 + a) % 4294967296, (b0 + b) % 4294967296, (c0 + c) % 4294967296,
   (d0 + d) % 4294967296, (e0 + e) % 4294967296, (f0 + f) % 4294967296,
   (g0 + g) % 4294967296, (h0 + h) % 4294967296)

/-- `Sha256::digest`: the 32-byte SHA-256 digest of a byte string. -/
def sha256 (msg : List Nat) : List Nat :=
  let (a, b, c, d, e, f, g, h) :=
    (splitChunks 64 (sha256Pad msg)).foldl sha256Block
      (1779033703, 3144134277, 1013904242, 2773480762,
       1359893119, 2600822924, 528734635, 1541459225)
  leftPad 4 (toBytesBE a) ++ leftPad 4 (toBytesBE b) ++
    leftPad 4 (toBytesBE c) ++ leftPad 4 (toBytesBE d) ++
    leftPad 4 (toBytesBE e) ++ leftPad 4 (toBytesBE f) ++
    leftPad 4 (toBytesBE g) ++ leftPad 4 (toBytesBE h)

/-- Lowercase hexadecimal digit as an ASCII code (`0-9 a-f`). -/
def hexDigitCode (n : Nat) : Nat := if n < 10 then 48 + n else 87 + n

/-- `format!("{:x}", digest)`: lowercase hex rendering of a byte string,
as ASCII codes. -/
def hexLowerBytes (l : List Nat) : List Nat :=
  (l.map fun b => [hexDigitCode (b / 16), hexDigitCode (b % 16)]).flatten

/-! ## UTF-8 validity (Rust `String::from_utf8`)

RFC 3629 byte-level validation: continuation ranges, no overlong forms,
no surrogates, maximum `U+10FFFF`. -/

def isValidUtf8 : List Nat → Bool
  | [] => true
  | b0 :: rest =>
    if b0 < 128 then isValidUtf8 rest
    else if b0 < 194 then false
    else if b0 < 224 then
      match rest with
      | b1 :: rest1 => decide (128 ≤ b1) && decide (b1 < 192) && isValidUtf8 rest1
      | _ => false
    else if b0 < 240 then
      match rest with
      | b1 :: b2 :: rest2 =>
        (if b0 = 224 then decide (160 ≤ b1) && decide (b1 < 192)
         else if b0 = 237 then decide (128 ≤ b1) && decide (b1 < 160)
         else decide (128 ≤ b1) && decide (b1 < 192)) &&
          (decide (128 ≤ b2) && decide (b2 < 192)) && isValidUtf8 rest2
      | _ => false
    else if b0 < 245 then
      match rest with
      | b1 :: b2 :: b3 :: rest3 =>
        (if b0 = 240 then decide (144 ≤ b1) && decide (b1 < 192)
         else if b0 = 244 then decide (128 ≤ b1) && decide (b1 < 144)
         else decide (128 ≤ b1) && decide (b1 < 192)) &&
          (decide (128 ≤ b2) && decide (b2 < 192)) &&
          (decide (128 ≤ b3) && decide (b3 < 192)) && isValidUtf8 rest3
      | _ => false
    else false

/-! ## The RSA crypto provider (`src/crypto.rs`)

Key material is modelled by the numbers the code actually uses: the modulus
together with the private exponent `d` (for `RsaPrivateKey`) or the public
exponent `e` (for `RsaPublicKey`). Strings passed to and from the provider
are modelled as their UTF-8 bytes; base64 output is a list of ASCII codes. -/

structure RsaPrivateKey where
  n : Nat
  d : Nat
deriving Repr, DecidableEq

structure RsaPublicKey where
  n : Nat
  e : Nat
deriving Repr, DecidableEq

/-- `RsaCryptoProvider`: optional transport key pair and optional dedicated
signing key, immutable after construction. -/
structure RsaCryptoProvider where
  private_key : Option RsaPrivateKey
  public_key : Option RsaPublicKey
  sign_private_key : Option RsaPrivateKey
deriving Repr, DecidableEq

/-- One segment of `raw_encrypt_with_private_key`: manual PKCS#1 v1.5 type-1
padding (`00 01 FF… 00 chunk`) followed by `m ^ d mod n`, zero-left-padded to
the key size. -/
def encryptChunk (keySize d n : Nat) (chunk : List Nat) : List Nat :=
  let padded := [0, 1] ++ List.replicate (keySize - chunk.length - 3) 255 ++ [0] ++ chunk
  leftPad keySize (toBytesBE (modpow (fromBytesBE padded) d n))

/-- `RsaCryptoProvider::raw_encrypt_with_private_key`. -/
def raw_encrypt_with_private_key (p : RsaCryptoProvider) (data : List Nat) :
    Except String (List Nat) :=
  match p.private_key with
  | none => .error "Private key is not set"
  | some key =>
    let ks := keySize key.n
    .ok (((splitChunks (ks - 11) data).map (encryptChunk ks key.d key.n)).flatten)

/-- The `for i in 2..len` scan for the first `0x00` separator. -/
def findSepIdx (w : List Nat) : Option Nat :=
  (List.range w.length).find? fun i => decide (2 ≤ i) && decide (w.getD i 0 = 0)

/-- The padding-stripping step of `raw_decrypt_with_public_key`, applied to
one zero-left-padded decrypted window. Note the code checks only byte 1
(`padded_decrypted[1] == 0x01 || == 0x02`); byte 0 is never examined. -/
def stripPadding (w : List Nat) : List Nat :=
  if 11 ≤ w.length then
    match (if 2 ≤ w.length ∧ (w.getD 1 0 = 1 ∨ w.getD 1 0 = 2)
           then findSepIdx w else none) with
    | some idx => w.drop (idx + 1)
    | none => w.dropWhile fun b => b == 0
  else w.dropWhile fun b => b == 0

/-- One window of `raw_decrypt_with_public_key`: `c ^ e mod n`,
zero-left-padded to the key size, then padding stripping. -/
def decryptChunk (keySize e n : Nat) (chunk : List Nat) : List Nat :=
  stripPadding (leftPad keySize (toBytesBE (modpow (fromBytesBE chunk) e n)))

/-- `RsaCryptoProvider::raw_decrypt_with_public_key`. -/
def raw_decrypt_with_public_key (p : RsaCryptoProvider) (encrypted_data : List Nat) :
    Except String (List Nat) :=
  match p.public_key with
  | none => .error "Public key is not set"
  | some key =>
    let ks := keySize key.n
    .ok (((splitChunks ks encrypted_data).map (decryptChunk ks key.e key.n)).flatten)

/-- `CryptoProvider::encrypt_with_private_key`: raw segmented encryption then
URL-safe base64 without padding. -/
def encrypt_with_private_key (p : RsaCryptoProvider) (data : List Nat) :
    Except String (List Nat) :=
  (raw_encrypt_with_private_key p data).map b64UrlEncode

/-- `CryptoProvider::decrypt_with_public_key`: URL-safe base64 decode (with a
retry that re-adds `=` padding), raw segmented decryption, then UTF-8
validation (`String::from_utf8`). -/
def decrypt_with_public_key (p : RsaCryptoProvider) (encrypted_data : List Nat) :
    Except String (List Nat) := do
  let padded_data :=
    encrypted_data ++ List.replicate ((4 - encrypted_data.length % 4) % 4) 61
  let encrypted_bytes ←
    match b64UrlDecode encrypted_data with
    | .ok bytes => Except.ok bytes
    | .error _ =>
      match b64PadDecode b64UrlVal padded_data with
      | .ok bytes => Except.ok bytes
      | .error e => Except.error ("Failed to decode base64: " ++ e)
  let decrypted ← raw_decrypt_with_public_key p encrypted_bytes
  if isValidUtf8 decrypted then Except.ok decrypted
  else Except.error "Failed to decode UTF-8"

/-! ### The `rsa` crate's PKCS#1 v1.5 signature primitives -/

/-- `pkcs1v15_sign_pad` with an empty prefix followed by the raw private-key
operation (`RsaPrivateKey::sign` with `Pkcs1v15Sign::new_unprefixed()`):
errors with "message too long" when the key is smaller than the padded
digest. -/
def rsaPkcs1v15SignRaw (key : RsaPrivateKey) (digest : List Nat) :
    Except String (List Nat) :=
  let ks := keySize key.n
  if ks < digest.length + 11 then .error "Failed to sign: message too long"
  else
    let em := [0, 1] ++ List.replicate (ks - digest.length - 3) 255 ++ [0] ++ digest
    .ok (leftPad ks (toBytesBE (modpow (fromBytesBE em) key.d key.n)))

/-- The `rsa` crate's `pkcs1v15::verify` with an empty prefix: recompute
`sig ^ e mod n`, re-pad the expected digest, and compare; any structural
failure (wrong signature length, signature value `≥ n`, key too small)
yields `false` rather than a match. -/
def rsaPkcs1v15VerifyRaw (key : RsaPublicKey) (hashed : List Nat)
    (sigBytes : List Nat) : Bool :=
  let ks := keySize key.n
  if sigBytes.length ≠ ks ∨ key.n ≤ fromBytesBE sigBytes then false
  else if ks < hashed.length + 11 then false
  else
    leftPad ks (toBytesBE (modpow (fromBytesBE sigBytes) key.e key.n)) ==
      [0, 1] ++ List.replicate (ks - hashed.length - 3) 255 ++ [0] ++ hashed

/-- The 19-byte SHA-256 `DigestInfo` ASN.1 prefix built in `sign`. -/
def sha256DigestInfoHeader : List Nat :=
  [48, 49, 48, 13, 6, 9, 96, 134, 72, 1, 101, 3, 4, 2, 1, 5, 0, 4, 32]

/-- `CryptoProvider::sign`: MD5, lowercase hex, SHA-256 of the hex bytes,
manual DigestInfo, unprefixed PKCS#1 v1.5 RSA signature, standard base64.
Uses the dedicated signing key when set, else the main private key. -/
def sign (p : RsaCryptoProvider) (data : List Nat) : Except String (List Nat) :=
  match p.sign_private_key.or p.private_key with
  | none => .error "Neither sign_private_key nor private_key is set"
  | some signing_key =>
    let md5_hash := hexLowerBytes (md5 data)
    let hash := sha256 md5_hash
    let digest_info := sha256DigestInfoHeader ++ hash
    (rsaPkcs1v15SignRaw signing_key digest_info).map b64StdEncode

/-- `CryptoProvider::verify`: standard base64 decode (propagating a decode
failure as an error), then unprefixed PKCS#1 v1.5 verification of the
SHA-256 of the data, returning the boolean outcome. -/
def verify (p : RsaCryptoProvider) (data : List Nat) (signature : List Nat) :
    Except String Bool :=
  match p.public_key with
  | none => .error "Public key is not set"
  | some key =>
    match b64StdDecode signature with
    | .error e => .error ("Failed to decode signature: " ++ e)
    | .ok signature_bytes => .ok (rsaPkcs1v15VerifyRaw key (sha256 data) signature_bytes)

/-! ## MPC sign utility (`src/mpc/sign_util.rs`) -/

/-- `BTreeMap::insert` on an association list kept sorted by key
(Rust `&str` ordering; Lean's `String` order is the same lexicographic
order on code points, which agrees with byte order for UTF-8). -/
def btreeInsert (k v : String) : List (String × String) → List (String × String)
  | [] => [(k, v)]
  | (k', v') :: rest =>
    if k < k' then (k, v) :: (k', v') :: rest
    else if k = k' then (k, v) :: rest
    else (k', v') :: btreeInsert k v rest

/-- `MpcSignUtil::build_sign_string`: drop empty values, render `key=value`
pairs joined by `&` (the map is already key-sorted). -/
def build_sign_string (params : List (String × String)) : String :=
  String.intercalate "&"
    ((params.filter fun p => !(p.2 == "")).map fun p => p.1 ++ "=" ++ p.2)

/-- The canonical sign string: `build_sign_string` then the callers'
`.to_lowercase()`. -/
def canonicalSignString (params : List (String × String)) : String :=
  (build_sign_string params).toLower

/-- `WithdrawSignParams`. -/
structure WithdrawSignParams where
  request_id : String
  sub_wallet_id : Int
  symbol : String
  address_to : String
  amount : String
  memo : Option String
  outputs : Option String

/-- The sign map built by `MpcSignUtil::generate_withdraw_sign` (inserts in
source order; `BTreeMap` keeps it key-sorted). -/
def withdrawSignMap (params : WithdrawSignParams) : List (String × String) :=
  let m := btreeInsert "request_id" params.request_id []
  let m := btreeInsert "sub_wallet_id" (toString params.sub_wallet_id) m
  let m := btreeInsert "symbol" params.symbol m
  let m := btreeInsert "address_to" params.address_to m
  let m := btreeInsert "amount" params.amount m
  let m := match params.memo with
    | some memo => btreeInsert "memo" memo m
    | none => m
  match params.outputs with
  | some outputs => btreeInsert "outputs" outputs m
  | none => m

/-! ## Response pipeline (`src/mpc/api/base_api.rs`)

`serde_json::Value` is modelled by `JValue` (JSON numbers restricted to the
integers the pipeline actually compares). The crypto provider is a trait
object (`Arc<dyn CryptoProvider>`) and `serde_json` parsing is external, so
both enter the pipeline functions as parameters. -/

inductive JValue where
  | null
  | bool (b : Bool)
  | num (n : Int)
  | str (s : String)
  | arr (a : List JValue)
  | obj (o : List (String × JValue))

/-- `Value::get(key)`: field lookup on an object, `None` otherwise. -/
def jget (v : JValue) (key : String) : Option JValue :=
  match v with
  | .obj o => (o.find? fun p => p.1 == key).map Prod.snd
  | _ => none

/-- `Value::as_str`. -/
def jAsStr : JValue → Option String
  | .str s => some s
  | _ => none

/-- `Value::as_i64`. -/
def jAsI64 : JValue → Option Int
  | .num n => if -(2 ^ 63) ≤ n ∧ n < 2 ^ 63 then some n else none
  | _ => none

/-- Digit-string accumulation for `str::parse::<i32>`. -/
def parseDigits (acc : Nat) : List Char → Option Nat
  | [] => some acc
  | c :: rest =>
    if c.isDigit then parseDigits (acc * 10 + (c.toNat - 48)) rest else none

/-- `s.parse::<i32>().ok()`: optional sign, one or more ASCII digits,
within `i32` range. -/
def parseI32 (s : String) : Option Int :=
  match s.toList with
  | [] => none
  | '+' :: ds =>
    match ds, parseDigits 0 ds with
    | [], _ => none
    | _, some v => if v ≤ 2147483647 then some (v : Int) else none
    | _, none => none
  | '-' :: ds =>
    match ds, parseDigits 0 ds with
    | [], _ => none
    | _, some v => if v ≤ 2147483648 then some (-(v : Int)) else none
    | _, none => none
  | ds =>
    match parseDigits 0 ds with
    | some v => if v ≤ 2147483647 then some (v : Int) else none
    | none => none

/-- `i as i32` for an `i64` value: wrap modulo `2³²` into the signed range. -/
def i64AsI32 (i : Int) : Int :=
  let r := i % 4294967296
  if r < 2147483648 then r else r - 4294967296

/-- The response-code extraction shared by `validate_response` and
`validate_response_raw`:
`code.as_str().and_then(parse).or_else(as_i64 as i32).unwrap_or(-1)`. -/
def response_code (response : JValue) : Int :=
  match jget response "code" with
  | none => -1
  | some v =>
    match (jAsStr v).bind parseI32 with
    | some i => i
    | none =>
      match (jAsI64 v).map i64AsI32 with
      | some i => i
      | none => -1

/-- `msg.as_str().unwrap_or("Unknown error")`. -/
def response_msg (response : JValue) : String :=
  match (jget response "msg").bind jAsStr with
  | some s => s
  | none => "Unknown error"

/-- Errors surfaced by the validation functions: `ApiError` with code and
message, or any other SDK error. -/
inductive SdkError where
  | api (code : Int) (msg : String)
  | other (msg : String)

/-- `MpcBaseApi::validate_response_raw`. -/
def validate_response_raw (decrypt : String → Except String String)
    (parseJson : String → Except String JValue) (response : JValue) :
    Except SdkError JValue :=
  let code := response_code response
  if code ≠ 0 then .error (.api code (response_msg response))
  else
    match jget response "data" with
    | some (.str encrypted_data) =>
      match decrypt encrypted_data with
      | .error e => .error (.other e)
      | .ok decrypted =>
        match parseJson decrypted with
        | .error e => .error (.other e)
        | .ok v => .ok v
    | some v => .ok v
    | none => .ok .null

/-- `MpcBaseApi::validate_response::<T>`; `parseStr` is
`serde_json::from_str::<T>` and `parseVal` is `serde_json::from_value::<T>`. -/
def validate_response {T : Type} (decrypt : String → Except String String)
    (parseStr : String → Except String T) (parseVal : JValue → Except String T)
    (response : JValue) : Except SdkError T :=
  let code := response_code response
  if code ≠ 0 then .error (.api code (response_msg response))
  else
    match jget response "data" with
    | some (.str encrypted_data) =>
      match decrypt encrypted_data with
      | .error e => .error (.other e)
      | .ok decrypted =>
        match parseStr decrypted with
        | .error e => .error (.other e)
        | .ok v => .ok v
    | some v =>
      match parseVal v with
      | .error e => .error (.other e)
      | .ok parsed => .ok parsed
    | none =>
      match parseVal .null with
      | .error e => .error (.other e)
      | .ok parsed => .ok parsed

/-- Step 4 of `MpcBaseApi::execute_request`: if the response's `data` field
is a string, decrypt it and parse the plaintext as the real response
(propagating a JSON parse error); if decryption fails, return the raw
response unchanged. -/
def execute_request_decrypt_step (decrypt : String → Except String String)
    (parseJson : String → Except String JValue) (response : JValue) :
    Except String JValue :=
  match jget response "data" with
  | some (.str encrypted_response_data) =>
    match decrypt encrypted_response_data with
    | .ok decrypted => parseJson decrypted
    | .error _ => .ok response
  | _ => .ok response

/-! ## RSA inversion for squarefree moduli

`m ^ (d·e) ≡ m (mod n)` for a squarefree `n` whenever `d·e ≡ 1` modulo each
`p − 1`. Used to build a concrete matching key pair for the witnesses. -/

theorem coprime_list_prod (p : Nat) (l : List Nat) (h : ∀ q ∈ l, Nat.Coprime p q) :
    Nat.Coprime p l.prod := by
  induction l with
  | nil => simp [Nat.coprime_one_right]
  | cons q rest ih =>
    rw [List.prod_cons]
    exact Nat.Coprime.mul_right (h q (by simp)) (ih fun x hx => h x (by simp [hx]))

theorem pow_modEq_self_prime (p t m : Nat) (hp : p.Prime) (ht : 1 ≤ t)
    (hd : (p - 1) ∣ (t - 1)) : m ^ t ≡ m [MOD p] := by
  by_cases hpm : p ∣ m
  · have h1 : m ^ t ≡ 0 [MOD p] :=
      (Nat.modEq_zero_iff_dvd).mpr (dvd_pow hpm (by omega))
    have h2 : m ≡ 0 [MOD p] := (Nat.modEq_zero_iff_dvd).mpr hpm
    exact h1.trans h2.symm
  · have hco : Nat.Coprime m p := (Nat.coprime_comm).mp ((hp.coprime_iff_not_dvd).mpr hpm)
    have hfermat := Nat.ModEq.pow_totient hco
    rw [Nat.totient_prime hp] at hfermat
    obtain ⟨c, hc⟩ := hd
    have htc : t = (p - 1) * c + 1 := by omega
    calc m ^ t = (m ^ (p - 1)) ^ c * m := by rw [htc, pow_succ, pow_mul]
      _ ≡ 1 ^ c * m [MOD p] := Nat.ModEq.mul_right m (hfermat.pow c)
      _ = m := by rw [one_pow, one_mul]

theorem pow_modEq_self_primes (l : List Nat) (t m : Nat)
    (hp : ∀ p ∈ l, Nat.Prime p) (hnd : l.Nodup) (ht : 1 ≤ t)
    (hdvd : ∀ p ∈ l, (p - 1) ∣ (t - 1)) : m ^ t ≡ m [MOD l.prod] := by
  induction l with
  | nil => simp [Nat.modEq_one]
  | cons p rest ih =>
    have hpp : p.Prime := hp p (by simp)
    have hnotmem : p ∉ rest := (List.nodup_cons.mp hnd).1
    have hco : Nat.Coprime p rest.prod := by
      apply coprime_list_prod
      intro q hq
      have hqp : q.Prime := hp q (by simp [hq])
      refine (Nat.coprime_primes hpp hqp).mpr ?_
      intro he
      exact hnotmem (he ▸ hq)
    rw [List.prod_cons]
    refine (Nat.modEq_and_modEq_iff_modEq_mul hco).mp ⟨?_, ?_⟩
    · exact pow_modEq_self_prime p t m hpp ht (hdvd p (by simp))
    · exact ih (fun q hq => hp q (by simp [hq])) (List.nodup_cons.mp hnd).2
        fun q hq => hdvd q (by simp [hq])

/-- A matching raw-RSA key: decrypt-with-`e` inverts encrypt-with-`d` on
every residue, via Fermat's little theorem on a squarefree modulus. -/
theorem key_inversion (n d e : Nat) (l : List Nat) (hprod : l.prod = n)
    (hp : ∀ p ∈ l, Nat.Prime p) (hnd : l.Nodup) (ht : 1 ≤ d * e)
    (hdvd : ∀ p ∈ l, (p - 1) ∣ (d * e - 1)) :
    ∀ m, m < n → modpow (modpow m d n) e n = m := by
  intro m hm
  have hn : 0 < n := lt_of_le_of_lt (Nat.zero_le m) hm
  rw [modpow_eq _ _ _ hn, modpow_eq _ _ _ hn]
  have hme : (m ^ d % n) ^ e % n = m ^ (d * e) % n := by
    rw [Nat.pow_mod, Nat.mod_mod_of_dvd _ dvd_rfl, ← Nat.pow_mod, ← pow_mul]
  rw [hme]
  have hmod : m ^ (d * e) ≡ m [MOD n] := by
    rw [← hprod]
    exact pow_modEq_self_primes l (d * e) m hp hnd ht hdvd
  unfold Nat.ModEq at hmod
  rw [hmod, Nat.mod_eq_of_lt hm]

/-! ### A concrete matching key pair for witnesses

The modulus is the product of the primes up to 379 (64 bytes); `e = 65537`
and `d` is its inverse modulo `lcm (p − 1)`. -/

def wPrimes : List Nat :=
  [2, 3, 5, 7, 11, 13, 17, 19, 23, 29, 31, 37, 41, 43, 47, 53, 59, 61, 67, 71, 73, 79,
   83, 89, 97, 101, 103, 107, 109, 113, 127, 131, 137, 139, 149, 151, 157, 163, 167,
   173, 179, 181, 191, 193, 197, 199, 211, 223, 227, 229, 233, 239, 241, 251, 257,
   263, 269, 271, 277, 281, 283, 293, 307, 311, 313, 317, 331, 337, 347, 349, 353,
   359, 367, 373, 379]

def wN : Nat :=
  1719620105458406433483340568317543019584575635895742560438771105058321655238562613083979651479555788009994557822024565226932906295208262756822275663694110

def wD : Nat := 769135934749736501407401088921182755473161473

def wE : Nat := 65537

/-! ### Key-size bounds -/

theorem keySize_pos (n : Nat) : 1 ≤ keySize n := by
  unfold keySize
  by_cases hn : n = 0
  · simp [hn, toBytesBE]
  · rcases h : toBytesBE n with _ | ⟨b, rest⟩
    · exfalso
      have := fromBytesBE_toBytesBE n
      rw [h] at this
      simp [fromBytesBE] at this
      omega
    · simp

theorem lt_keySize_pow (n : Nat) : n < 256 ^ keySize n := by
  conv_lhs => rw [← fromBytesBE_toBytesBE n]
  exact fromBytesBE_lt _ (toBytesBE_bytes_lt n)

theorem keySize_pow_le (n : Nat) (hn : 0 < n) : 256 ^ (keySize n - 1) ≤ n := by
  by_contra hlt
  push_neg at hlt
  have h1 := keySize_pos n
  by_cases hk : keySize n = 1
  · rw [hk] at hlt
    simp at hlt
    omega
  · have : (toBytesBE n).length ≤ keySize n - 1 :=
      toBytesBE_length_le n (keySize n - 1) (by omega) hlt
    unfold keySize at *
    omega

theorem keySize_zero : keySize 0 = 1 := by simp [keySize, toBytesBE]

/-! ### Chunk membership -/

theorem splitChunksAux_mem (m : Nat) (hm : 1 ≤ m) :
    ∀ fuel data c, c ∈ splitChunksAux m fuel data →
      c.length ≤ m ∧ 1 ≤ c.length ∧ ∀ b ∈ c, b ∈ data := by
  intro fuel
  induction fuel with
  | zero => intro data c hc; simp [splitChunksAux] at hc
  | succ fuel ih =>
    intro data c hc
    unfold splitChunksAux at hc
    by_cases hd : data.isEmpty
    · simp [hd] at hc
    · rw [if_neg hd] at hc
      have hne : data ≠ [] := by simpa [List.isEmpty_iff] using hd
      rcases List.mem_cons.mp hc with hc | hc
      · subst hc
        refine ⟨by simpa using List.length_take_le m data, ?_, ?_⟩
        · rcases data with _ | ⟨x, xs⟩
          · simp at hne
          · simp [List.take_cons]
            omega
        · intro b hb
          exact List.take_subset m data hb
      · obtain ⟨h1, h2, h3⟩ := ih (data.drop m) c hc
        exact ⟨h1, h2, fun b hb => List.drop_subset m data (h3 b hb)⟩

theorem splitChunks_mem (m : Nat) (hm : 1 ≤ m) (data : List Nat) :
    ∀ c ∈ splitChunks m data, c.length ≤ m ∧ 1 ≤ c.length ∧ ∀ b ∈ c, b ∈ data :=
  fun c hc => splitChunksAux_mem m hm data.length data c hc

/-! ### The separator scan -/

theorem find?_range' (pred : Nat → Bool) (i₀ : Nat) (hpred : pred i₀ = true) :
    ∀ n s, (∀ i, s ≤ i → i < i₀ → pred i = false) → s ≤ i₀ → i₀ < s + n →
      (List.range' s n).find? pred = some i₀ := by
  intro n
  induction n with
  | zero => intro s _ h1 h2; omega
  | succ n ih =>
    intro s hmin hs hlt
    rw [List.range'_succ]
    by_cases hse : s = i₀
    · subst hse
      simp [List.find?_cons, hpred]
    · have hps : pred s = false := hmin s le_rfl (by omega)
      simp only [List.find?_cons, hps]
      exact ih (s + 1) (fun i h1 h2 => hmin i (by omega) h2) (by omega) (by omega)

theorem findSepIdx_eq (w : List Nat) (i₀ : Nat) (hi : i₀ < w.length)
    (h2 : 2 ≤ i₀) (h0 : w.getD i₀ 0 = 0)
    (hmin : ∀ i, 2 ≤ i → i < i₀ → w.getD i 0 ≠ 0) :
    findSepIdx w = some i₀ := by
  unfold findSepIdx
  rw [List.range_eq_range']
  have h0' : w[i₀]?.getD 0 = 0 := by simpa [List.getD] using h0
  apply find?_range' _ i₀ (by simp [h2, h0'])
  · intro i hs hlt
    by_cases hi2 : 2 ≤ i
    · have hne : ¬ w[i]?.getD 0 = 0 := by
        have := hmin i hi2 hlt
        simpa [List.getD] using this
      simp [hi2, hne]
    · simp at hi2
      interval_cases i <;> simp
  · omega
  · omega

/-- Stripping the manual `00 01 FF… 00 chunk` padding recovers the chunk. -/
theorem stripPadding_padded (p : Nat) (chunk : List Nat) (hp : 1 ≤ p)
    (hlen : 11 ≤ p + chunk.length + 3) :
    stripPadding (0 :: 1 :: (List.replicate p 255 ++ 0 :: chunk)) = chunk := by
  set w := 0 :: 1 :: (List.replicate p 255 ++ 0 :: chunk) with hw
  have hwlen : w.length = p + chunk.length + 3 := by
    simp [hw]
    omega
  have hget1 : w.getD 1 0 = 1 := by simp [hw]
  have hsep : findSepIdx w = some (p + 2) := by
    apply findSepIdx_eq
    · omega
    · omega
    · show (0 :: 1 :: (List.replicate p 255 ++ 0 :: chunk)).getD (p + 2) 0 = 0
      rw [show p + 2 = (p + 1) + 1 from rfl, List.getD_cons_succ, List.getD_cons_succ,
        List.getD_append_right _ _ 0 p (by simp)]
      simp
    · intro i h2 hlt
      show (0 :: 1 :: (List.replicate p 255 ++ 0 :: chunk)).getD i 0 ≠ 0
      obtain ⟨j, rfl⟩ : ∃ j, i = j + 2 := ⟨i - 2, by omega⟩
      rw [show j + 2 = (j + 1) + 1 from rfl, List.getD_cons_succ, List.getD_cons_succ]
      have hj : j < p := by omega
      rw [List.getD_append _ _ _ _ (by simp [hj])]
      simp [List.getD, List.getElem?_replicate, hj]
  unfold stripPadding
  rw [if_pos (by omega), if_pos ⟨by omega, Or.inl hget1⟩, hsep]
  show w.drop (p + 3) = chunk
  rw [hw, show p + 3 = (p + 2) + 1 from rfl, show p + 2 = (p + 1) + 1 from rfl,
    List.drop_succ_cons, List.drop_succ_cons]
  have : p + 1 = (List.replicate p 255).length + 1 := by simp
  rw [this, List.drop_append, List.drop_succ_cons, List.drop_zero]

/-- An encrypted chunk is exactly `keySize` bytes of in-range values. -/
theorem encryptChunk_spec (ks d n : Nat) (chunk : List Nat) (hks : 1 ≤ ks)
    (hn : 0 < n) (hbound : n ≤ 256 ^ ks) :
    (encryptChunk ks d n chunk).length = ks ∧
    (∀ b ∈ encryptChunk ks d n chunk, b < 256) := by
  have hlt : modpow (fromBytesBE ([0, 1] ++ List.replicate (ks - chunk.length - 3) 255 ++
      [0] ++ chunk)) d n < 256 ^ ks :=
    lt_of_lt_of_le (modpow_lt _ _ _ hn) hbound
  obtain ⟨h1, h2, _⟩ := leftPad_toBytesBE_spec ks _ hks hlt
  exact ⟨h1, h2⟩

/-- The value of a manually padded block is below `256 ^ (ks − 1)`. -/
theorem paddedBlock_lt (p : Nat) (chunk : List Nat) (hb : ∀ b ∈ chunk, b < 256)
    (ks : Nat) (hlen : 2 + p + 1 + chunk.length = ks) :
    fromBytesBE ([0, 1] ++ List.replicate p 255 ++ [0] ++ chunk) < 256 ^ (ks - 1) := by
  have hform : [0, 1] ++ List.replicate p 255 ++ [0] ++ chunk =
      List.replicate 1 0 ++ (1 :: (List.replicate p 255 ++ 0 :: chunk)) := by
    simp
  rw [hform, fromBytesBE_replicate_zero]
  have hlt : fromBytesBE (1 :: (List.replicate p 255 ++ 0 :: chunk)) <
      256 ^ (1 :: (List.replicate p 255 ++ 0 :: chunk)).length := by
    apply fromBytesBE_lt
    intro b hbm
    simp only [List.mem_cons, List.mem_append, List.mem_replicate] at hbm
    rcases hbm with h | h | h
    · omega
    · omega
    · rcases h with h | h
      · omega
      · exact hb b h
  have hlcalc : (1 :: (List.replicate p 255 ++ 0 :: chunk)).length = ks - 1 := by
    simp
    omega
  rw [hlcalc] at hlt
  exact hlt

/-- Per-chunk roundtrip: decrypting an encrypted chunk recovers the chunk. -/
theorem decryptChunk_encryptChunk (n d e ks : Nat) (chunk : List Nat)
    (hks12 : 12 ≤ ks) (hn1 : 256 ^ (ks - 1) ≤ n) (hn2 : n < 256 ^ ks)
    (hinv : ∀ m, m < n → modpow (modpow m d n) e n = m)
    (hlen : chunk.length ≤ ks - 11) (hne : 1 ≤ chunk.length)
    (hb : ∀ b ∈ chunk, b < 256) :
    decryptChunk ks e n (encryptChunk ks d n chunk) = chunk := by
  have hn : 0 < n := lt_of_lt_of_le (Nat.pos_pow_of_pos _ (by norm_num)) hn1
  set p := ks - chunk.length - 3 with hpdef
  have hp8 : 8 ≤ p := by omega
  have hlensum : 2 + p + 1 + chunk.length = ks := by omega
  set padded := [0, 1] ++ List.replicate p 255 ++ [0] ++ chunk with hpadded
  have hv : fromBytesBE padded < n :=
    lt_of_lt_of_le (paddedBlock_lt p chunk hb ks hlensum) hn1
  set c := modpow (fromBytesBE padded) d n with hc
  have hA : encryptChunk ks d n chunk = leftPad ks (toBytesBE c) := rfl
  have hB : decryptChunk ks e n (leftPad ks (toBytesBE c)) =
      stripPadding (leftPad ks (toBytesBE
        (modpow (fromBytesBE (leftPad ks (toBytesBE c))) e n))) := rfl
  rw [hA, hB, fromBytesBE_leftPad, fromBytesBE_toBytesBE, hc, hinv _ hv]
  have hpform : padded = 0 :: 1 :: (List.replicate p 255 ++ 0 :: chunk) := by
    simp [hpadded]
  have hplen : padded.length = ks := by
    rw [hpform]
    simp
    omega
  have hpbytes : ∀ b ∈ padded, b < 256 := by
    intro b hbm
    rw [hpform] at hbm
    simp only [List.mem_cons, List.mem_append, List.mem_replicate] at hbm
    rcases hbm with h | h | h | h | h
    · omega
    · omega
    · omega
    · omega
    · exact hb b h
  have hrt : leftPad ks (toBytesBE (fromBytesBE padded)) = padded := by
    have := leftPad_toBytesBE_fromBytesBE padded hpbytes (by omega)
    rwa [hplen] at this
  rw [hrt, hpform]
  exact stripPadding_padded p chunk (by omega) (by omega)

/-- Raw segmented roundtrip (claim C1 at the byte level). -/
theorem raw_encrypt_decrypt (p : RsaCryptoProvider) (priv : RsaPrivateKey)
    (pub : RsaPublicKey) (data : List Nat)
    (hpriv : p.private_key = some priv) (hpub : p.public_key = some pub)
    (hnn : pub.n = priv.n)
    (hb : ∀ b ∈ data, b < 256)
    (hks : 12 ≤ keySize priv.n)
    (hinv : ∀ m, m < priv.n → modpow (modpow m priv.d priv.n) pub.e priv.n = m) :
    ∃ ct, raw_encrypt_with_private_key p data = .ok ct ∧
      raw_decrypt_with_public_key p ct = .ok data ∧ (∀ b ∈ ct, b < 256) := by
  have hn0 : 0 < priv.n := by
    rcases Nat.eq_zero_or_pos priv.n with h | h
    · rw [h, keySize_zero] at hks; omega
    · exact h
  have hn1 : 256 ^ (keySize priv.n - 1) ≤ priv.n := keySize_pow_le priv.n hn0
  have hn2 : priv.n < 256 ^ keySize priv.n := lt_keySize_pow priv.n
  set ks := keySize priv.n with hksdef
  set blocks := (splitChunks (ks - 11) data).map (encryptChunk ks priv.d priv.n)
    with hblocks
  refine ⟨blocks.flatten, ?_, ?_, ?_⟩
  · unfold raw_encrypt_with_private_key
    rw [hpriv]
  · unfold raw_decrypt_with_public_key
    rw [hpub]
    show Except.ok (((splitChunks (keySize pub.n) blocks.flatten).map
      (decryptChunk (keySize pub.n) pub.e pub.n)).flatten) = Except.ok data
    rw [hnn, ← hksdef]
    have hblk : ∀ blk ∈ blocks, blk.length = ks := by
      intro blk hblk
      rw [hblocks] at hblk
      obtain ⟨chunk, hchunk, rfl⟩ := List.mem_map.mp hblk
      exact (encryptChunk_spec ks priv.d priv.n chunk (by omega) hn0 (le_of_lt hn2)).1
    rw [splitChunks_flatten_blocks ks (by omega) blocks hblk, hblocks, List.map_map]
    have hchunks : ∀ chunk ∈ splitChunks (ks - 11) data,
        (decryptChunk ks pub.e priv.n ∘ encryptChunk ks priv.d priv.n) chunk = chunk := by
      intro chunk hchunk
      obtain ⟨h1, h2, h3⟩ := splitChunks_mem (ks - 11) (by omega) data chunk hchunk
      exact decryptChunk_encryptChunk priv.n priv.d pub.e ks chunk hks hn1 hn2 hinv h1 h2
        fun b hbm => hb b (h3 b hbm)
    rw [List.map_congr_left hchunks, List.map_id', splitChunks_join (ks - 11) (by omega)]
  · intro b hbm
    rw [List.mem_flatten] at hbm
    obtain ⟨blk, hblk, hbin⟩ := hbm
    rw [hblocks] at hblk
    obtain ⟨chunk, hchunk, rfl⟩ := List.mem_map.mp hblk
    exact (encryptChunk_spec ks priv.d priv.n chunk (by omega) hn0 (le_of_lt hn2)).2 b hbin

set_option maxRecDepth 100000 in
theorem wPrimes_prime : ∀ p ∈ wPrimes, Nat.Prime p := by
  intro p hp
  unfold wPrimes at hp
  fin_cases hp <;> norm_num

set_option maxRecDepth 100000 in
set_option maxHeartbeats 1000000 in
theorem wKey_inversion : ∀ m, m < wN → modpow (modpow m wD wN) wE wN = m := by
  apply key_inversion wN wD wE wPrimes
  · decide
  · exact wPrimes_prime
  · decide
  · decide
  · decide

/-! ### Output shape of SHA-256 -/

/-- The bound carried by every SHA-256 state component. -/
def bounded8 (s : Nat × Nat × Nat × Nat × Nat × Nat × Nat × Nat) : Prop :=
  s.1 < 4294967296 ∧ s.2.1 < 4294967296 ∧ s.2.2.1 < 4294967296 ∧
  s.2.2.2.1 < 4294967296 ∧ s.2.2.2.2.1 < 4294967296 ∧ s.2.2.2.2.2.1 < 4294967296 ∧
  s.2.2.2.2.2.2.1 < 4294967296 ∧ s.2.2.2.2.2.2.2 < 4294967296

theorem sha256Block_bounded (s : Nat × Nat × Nat × Nat × Nat × Nat × Nat × Nat)
    (block : List Nat) : bounded8 (sha256Block s block) := by
  obtain ⟨a, b, c, d, e, f, g, h⟩ := s
  unfold sha256Block bounded8
  set t := ((sha256Extend ((splitChunks 4 block).map fromBytesBE) 48).zip
      sha256K).foldl sha256Round (a, b, c, d, e, f, g, h) with ht
  clear_value t
  obtain ⟨a', b', c', d', e', f', g', h'⟩ := t
  refine ⟨?_, ?_, ?_, ?_, ?_, ?_, ?_, ?_⟩ <;> exact Nat.mod_lt _ (by norm_num)

theorem foldl_sha256Block_bounded (blocks : List (List Nat))
    (s : Nat × Nat × Nat × Nat × Nat × Nat × Nat × Nat) (hs : bounded8 s) :
    bounded8 (blocks.foldl sha256Block s) := by
  induction blocks generalizing s with
  | nil => exact hs
  | cons b rest ih =>
    rw [List.foldl_cons]
    exact ih (sha256Block s b) (sha256Block_bounded s b)

theorem sha256_spec (msg : List Nat) :
    (sha256 msg).length = 32 ∧ ∀ b ∈ sha256 msg, b < 256 := by
  unfold sha256
  have hb : bounded8 ((splitChunks 64 (sha256Pad msg)).foldl sha256Block
      (1779033703, 3144134277, 1013904242, 2773480762,
       1359893119, 2600822924, 528734635, 1541459225)) :=
    foldl_sha256Block_bounded _ _ (by norm_num [bounded8])
  rcases hfold : (splitChunks 64 (sha256Pad msg)).foldl sha256Block
      (1779033703, 3144134277, 1013904242, 2773480762,
       1359893119, 2600822924, 528734635, 1541459225) with
    ⟨a, b, c, d, e, f, g, h⟩
  rw [hfold] at hb
  obtain ⟨h1, h2, h3, h4, h5, h6, h7, h8⟩ := hb
  simp only [bounded8] at h1 h2 h3 h4 h5 h6 h7 h8
  have hw : ∀ w : Nat, w < 4294967296 →
      (leftPad 4 (toBytesBE w)).length = 4 ∧ ∀ x ∈ leftPad 4 (toBytesBE w), x < 256 := by
    intro w hwlt
    obtain ⟨hl, hby, _⟩ := leftPad_toBytesBE_spec 4 w (by norm_num) (by norm_num; omega)
    exact ⟨hl, hby⟩
  constructor
  · simp only [List.length_append, (hw a h1).1, (hw b h2).1, (hw c h3).1, (hw d h4).1,
      (hw e h5).1, (hw f h6).1, (hw g h7).1, (hw h h8).1]
  · intro x hx
    simp only [List.mem_append] at hx
    rcases hx with ((((((hx | hx) | hx) | hx) | hx) | hx) | hx) | hx
    · exact (hw a h1).2 x hx
    · exact (hw b h2).2 x hx
    · exact (hw c h3).2 x hx
    · exact (hw d h4).2 x hx
    · exact (hw e h5).2 x hx
    · exact (hw f h6).2 x hx
    · exact (hw g h7).2 x hx
    · exact (hw h h8).2 x hx

/-! ### Spec-side definitions (for refinement claims) -/

/-- Modelled from the spec (§4.2 decrypt step 4, claim C6 as stated): the
separator scan applies only when **byte 0 is `0x00`** and byte 1 is `0x01`
or `0x02`; otherwise (no such structure) skip leading zero bytes. -/
def specStripPaddingClaim (w : List Nat) : List Nat :=
  if w.getD 0 0 = 0 ∧ (w.getD 1 0 = 1 ∨ w.getD 1 0 = 2) then
    match findSepIdx w with
    | some idx => w.drop (idx + 1)
    | none => w.dropWhile fun b => b == 0
  else w.dropWhile fun b => b == 0

/-- The amended per-window padding removal: as claim C6, but byte 0 is not
examined (only byte 1 is checked), which is what the code does. -/
def specStripPaddingAmended (w : List Nat) : List Nat :=
  if w.getD 1 0 = 1 ∨ w.getD 1 0 = 2 then
    match findSepIdx w with
    | some idx => w.drop (idx + 1)
    | none => w.dropWhile fun b => b == 0
  else w.dropWhile fun b => b == 0

/-- Modelled from the spec (§4.3, claim C7): `sign` as the composition
MD5 → lowercase hex → SHA-256 → DigestInfo prefix → PKCS#1 v1.5 type-1
padding → `m ^ d mod n` → standard base64. -/
def signSpecFormula (key : RsaPrivateKey) (data : List Nat) : List Nat :=
  let digest_info := sha256DigestInfoHeader ++ sha256 (hexLowerBytes (md5 data))
  let ks := keySize key.n
  let em := [0, 1] ++ List.replicate (ks - digest_info.length - 3) 255 ++ [0] ++ digest_info
  b64StdEncode (leftPad ks (toBytesBE (modpow (fromBytesBE em) key.d key.n)))

/-! ### Why `verify` never accepts `sign`'s output -/

theorem getD_padBlock_sep (p : Nat) (tail : List Nat) :
    ([0, 1] ++ List.replicate p 255 ++ [0] ++ tail).getD (p + 2) 0 = 0 := by
  have hform : [0, 1] ++ List.replicate p 255 ++ [0] ++ tail =
      0 :: 1 :: (List.replicate p 255 ++ 0 :: tail) := by simp
  rw [hform, show p + 2 = (p + 1) + 1 from rfl, List.getD_cons_succ, List.getD_cons_succ,
    List.getD_append_right _ _ 0 p (by simp)]
  simp

theorem getD_padBlock_ff (p j : Nat) (tail : List Nat) (hj : j < p) :
    ([0, 1] ++ List.replicate p 255 ++ [0] ++ tail).getD (j + 2) 0 = 255 := by
  have hform : [0, 1] ++ List.replicate p 255 ++ [0] ++ tail =
      0 :: 1 :: (List.replicate p 255 ++ 0 :: tail) := by simp
  rw [hform, show j + 2 = (j + 1) + 1 from rfl, List.getD_cons_succ, List.getD_cons_succ,
    List.getD_append _ _ _ _ (by simp [hj])]
  simp [List.getD, List.getElem?_replicate, hj]

/-- Two type-1 padded blocks with different payload lengths are distinct
byte strings: the separator of the longer-payload block falls inside the
`0xFF` run of the shorter-payload block. -/
theorem padBlock_ne (ks : Nat) (t1 t2 : List Nat) (h1 : t1.length = 51)
    (h2 : t2.length = 32) (hks : 62 ≤ ks) :
    [0, 1] ++ List.replicate (ks - t1.length - 3) 255 ++ [0] ++ t1 ≠
    [0, 1] ++ List.replicate (ks - t2.length - 3) 255 ++ [0] ++ t2 := by
  intro heq
  have hL := getD_padBlock_sep (ks - t1.length - 3) t1
  have hR := getD_padBlock_ff (ks - t2.length - 3) (ks - 54) t2 (by omega)
  rw [heq] at hL
  have hidx : ks - t1.length - 3 + 2 = ks - 54 + 2 := by omega
  rw [hidx] at hL
  rw [hL] at hR
  exact absurd hR (by norm_num)

theorem sha256DigestInfoHeader_lt : ∀ b ∈ sha256DigestInfoHeader, b < 256 := by decide

/-- `verify(data, sign(data2))` is `false` for **every** pair of inputs, even
on a matching key pair: the signature embeds a 51-byte DigestInfo while
verification expects a bare 32-byte digest. -/
theorem sign_verify_false (p : RsaCryptoProvider) (priv : RsaPrivateKey)
    (pub : RsaPublicKey) (data data2 : List Nat)
    (hsel : p.sign_private_key.or p.private_key = some priv)
    (hpub : p.public_key = some pub) (hnn : pub.n = priv.n)
    (hks : 62 ≤ keySize priv.n)
    (hinv : ∀ m, m < priv.n → modpow (modpow m priv.d priv.n) pub.e priv.n = m) :
    (sign p data2).bind (verify p data) = .ok false := by
  have hn0 : 0 < priv.n := by
    rcases Nat.eq_zero_or_pos priv.n with h | h
    · rw [h, keySize_zero] at hks; omega
    · exact h
  have hn1 : 256 ^ (keySize priv.n - 1) ≤ priv.n := keySize_pow_le priv.n hn0
  have hn2 : priv.n < 256 ^ keySize priv.n := lt_keySize_pow priv.n
  set ks := keySize priv.n with hksdef
  set di := sha256DigestInfoHeader ++ sha256 (hexLowerBytes (md5 data2)) with hdi
  clear_value di
  have hdilen : di.length = 51 := by
    rw [hdi, List.length_append, (sha256_spec _).1]
    rfl
  have hdibytes : ∀ b ∈ di, b < 256 := by
    intro b hb
    rw [hdi, List.mem_append] at hb
    rcases hb with hb | hb
    · exact sha256DigestInfoHeader_lt b hb
    · exact (sha256_spec _).2 b hb
  set em := [0, 1] ++ List.replicate (ks - di.length - 3) 255 ++ [0] ++ di with hem
  clear_value em
  have hemval : fromBytesBE em < priv.n := by
    refine lt_of_lt_of_le ?_ hn1
    rw [hem]
    exact paddedBlock_lt (ks - di.length - 3) di hdibytes ks (by omega)
  have hembytes : ∀ b ∈ em, b < 256 := by
    intro b hb
    rw [hem] at hb
    rcases List.mem_append.mp hb with hb1 | hdi6
    · rcases List.mem_append.mp hb1 with hb2 | hb0
      · rcases List.mem_append.mp hb2 with hb01 | hrep
        · fin_cases hb01 <;> norm_num
        · rw [List.eq_of_mem_replicate hrep]
          norm_num
      · fin_cases hb0
        norm_num
    · exact hdibytes b hdi6
  have hemlen : em.length = ks := by
    rw [hem]
    simp only [List.length_append, List.length_cons, List.length_nil, List.length_replicate]
    omega
  set sig := leftPad ks (toBytesBE (modpow (fromBytesBE em) priv.d priv.n)) with hsig
  have hsigval : modpow (fromBytesBE em) priv.d priv.n < 256 ^ ks :=
    lt_of_lt_of_le (modpow_lt _ _ _ hn0) (le_of_lt hn2)
  obtain ⟨hsiglen, hsigbytes, hsigfrom⟩ :=
    leftPad_toBytesBE_spec ks (modpow (fromBytesBE em) priv.d priv.n) (by omega) hsigval
  rw [← hsig] at hsiglen hsigbytes hsigfrom
  clear_value sig
  have hsignraw : rsaPkcs1v15SignRaw priv di = .ok sig := by
    simp only [rsaPkcs1v15SignRaw]
    rw [if_neg (show ¬(keySize priv.n < di.length + 11) by omega), ← hksdef, ← hem, ← hsig]
  have hsign : sign p data2 = .ok (b64StdEncode sig) := by
    simp only [sign, hsel]
    rw [← hdi, hsignraw]
    rfl
  rw [hsign]
  show verify p data (b64StdEncode sig) = .ok false
  simp only [verify, hpub]
  rw [b64StdDecode_encode sig hsigbytes]
  show Except.ok (rsaPkcs1v15VerifyRaw pub (sha256 data) sig) = .ok false
  congr 1
  simp only [rsaPkcs1v15VerifyRaw]
  rw [hnn, ← hksdef]
  rw [if_neg (by
    push_neg
    constructor
    · exact hsiglen
    · rw [hsigfrom]
      exact modpow_lt _ _ _ hn0)]
  rw [if_neg (show ¬(ks < (sha256 data).length + 11) by
    have h32 := (sha256_spec data).1
    omega)]
  rw [hsigfrom, hinv _ hemval]
  have hemrt : leftPad ks (toBytesBE (fromBytesBE em)) = em := by
    have := leftPad_toBytesBE_fromBytesBE em hembytes (by omega)
    rwa [hemlen] at this
  rw [hemrt, beq_eq_false_iff_ne, hem]
  have h32 : (sha256 data).length = 32 := (sha256_spec data).1
  exact padBlock_ne ks di (sha256 data) hdilen h32 (by omega)

/-- The code's `stripPadding` agrees with the amended description on every
window it is actually applied to (length `≥ 11`). -/
theorem stripPadding_eq_amended (w : List Nat) (hw : 11 ≤ w.length) :
    stripPadding w = specStripPaddingAmended w := by
  unfold stripPadding specStripPaddingAmended
  rw [if_pos hw]
  by_cases hcond : w.getD 1 0 = 1 ∨ w.getD 1 0 = 2
  · rw [if_pos ⟨by omega, hcond⟩, if_pos hcond]
  · rw [if_neg (by tauto), if_neg hcond]

/-! ### Shapes of `splitChunks` for the block-boundary claim -/

theorem splitChunksAux_nil (m fuel : Nat) : splitChunksAux m fuel [] = [] := by
  cases fuel <;> simp [splitChunksAux]

theorem splitChunksAux_single (m fuel : Nat) (data : List Nat) (h1 : data ≠ [])
    (h2 : data.length ≤ m) (hf : 1 ≤ fuel) : splitChunksAux m fuel data = [data] := by
  cases fuel with
  | zero => omega
  | succ fuel =>
    unfold splitChunksAux
    rw [if_neg (by simpa [List.isEmpty_iff] using h1)]
    rw [List.take_of_length_le h2, List.drop_eq_nil_of_le h2, splitChunksAux_nil]

theorem splitChunks_eq_single (m : Nat) (data : List Nat) (h1 : data ≠ [])
    (h2 : data.length ≤ m) : splitChunks m data = [data] := by
  unfold splitChunks
  apply splitChunksAux_single m data.length data h1 h2
  have : data.length ≠ 0 := by simpa [List.length_eq_zero] using h1
  omega

theorem splitChunks_eq_two (m : Nat) (data : List Nat) (hm : 1 ≤ m)
    (h1 : m < data.length) (h2 : data.length ≤ 2 * m) :
    splitChunks m data = [data.take m, data.drop m] := by
  unfold splitChunks
  rcases hl : data.length with _ | f
  · omega
  · unfold splitChunksAux
    rw [if_neg (by
      simp only [List.isEmpty_iff]
      intro hnil
      rw [hnil] at hl
      simp at hl)]
    congr 1
    apply splitChunksAux_single
    · intro hnil
      have := List.length_drop m data
      rw [hnil] at this
      simp at this
      omega
    · rw [List.length_drop]
      omega
    · omega

/-! ### The spec-side form of `sign` -/

theorem sign_of_selected (p : RsaCryptoProvider) (key : RsaPrivateKey)
    (data : List Nat) (hsel : p.sign_private_key.or p.private_key = some key)
    (hks : 62 ≤ keySize key.n) :
    sign p data = .ok (signSpecFormula key data) := by
  have hdilen : (sha256DigestInfoHeader ++ sha256 (hexLowerBytes (md5 data))).length = 51 := by
    rw [List.length_append, (sha256_spec _).1]
    rfl
  simp only [sign, hsel]
  simp only [rsaPkcs1v15SignRaw]
  rw [if_neg (show ¬(keySize key.n <
    (sha256DigestInfoHeader ++ sha256 (hexLowerBytes (md5 data))).length + 11) by omega)]
  rfl

/-! ### `BTreeMap` insertion: membership, sortedness, permutation -/

/-- Keys strictly ascend (the `BTreeMap` invariant). -/
def SortedKeys (l : List (String × String)) : Prop :=
  l.Pairwise fun a b => a.1 < b.1

theorem mem_btreeInsert (k v : String) (l : List (String × String)) :
    ∀ x ∈ btreeInsert k v l, x = (k, v) ∨ x ∈ l := by
  induction l with
  | nil => simp [btreeInsert]
  | cons hd rest ih =>
    intro x hx
    unfold btreeInsert at hx
    by_cases h1 : k < hd.1
    · rw [if_pos h1] at hx
      simpa using hx
    · rw [if_neg h1] at hx
      by_cases h2 : k = hd.1
      · rw [if_pos h2] at hx
        rcases List.mem_cons.mp hx with hx | hx
        · exact Or.inl hx
        · exact Or.inr (List.mem_cons.mpr (Or.inr hx))
      · rw [if_neg h2] at hx
        rcases List.mem_cons.mp hx with hx | hx
        · exact Or.inr (List.mem_cons.mpr (Or.inl hx))
        · rcases ih x hx with hx | hx
          · exact Or.inl hx
          · exact Or.inr (List.mem_cons.mpr (Or.inr hx))

theorem sortedKeys_btreeInsert (k v : String) (l : List (String × String))
    (hs : SortedKeys l) : SortedKeys (btreeInsert k v l) := by
  induction l with
  | nil => simp [btreeInsert, SortedKeys]
  | cons hd rest ih =>
    obtain ⟨hhd, hrest⟩ := List.pairwise_cons.mp hs
    unfold btreeInsert
    by_cases h1 : k < hd.1
    · rw [if_pos h1]
      refine List.pairwise_cons.mpr ⟨?_, hs⟩
      intro x hx
      rcases List.mem_cons.mp hx with hx | hx
      · rw [hx]; exact h1
      · exact lt_trans h1 (hhd x hx)
    · rw [if_neg h1]
      by_cases h2 : k = hd.1
      · rw [if_pos h2]
        refine List.pairwise_cons.mpr ⟨?_, hrest⟩
        intro x hx
        rw [h2]
        exact hhd x hx
      · rw [if_neg h2]
        have h3 : hd.1 < k := by
          rcases lt_trichotomy k hd.1 with h | h | h
          · exact absurd h h1
          · exact absurd h h2
          · exact h
        refine List.pairwise_cons.mpr ⟨?_, ih hrest⟩
        intro x hx
        rcases mem_btreeInsert k v rest x hx with hx | hx
        · rw [hx]; exact h3
        · exact hhd x hx

theorem btreeInsert_perm (k v : String) (l : List (String × String))
    (hk : k ∉ l.map Prod.fst) : (btreeInsert k v l).Perm ((k, v) :: l) := by
  induction l with
  | nil => simp [btreeInsert]
  | cons hd rest ih =>
    simp only [List.map_cons, List.mem_cons] at hk
    push_neg at hk
    obtain ⟨hk1, hk2⟩ := hk
    unfold btreeInsert
    by_cases h1 : k < hd.1
    · rw [if_pos h1]
    · rw [if_neg h1, if_neg hk1]
      exact (List.Perm.cons hd (ih hk2)).trans (List.Perm.swap (k, v) hd rest)

theorem keys_btreeInsert_perm (k v : String) (l : List (String × String))
    (hk : k ∉ l.map Prod.fst) :
    ((btreeInsert k v l).map Prod.fst).Perm (k :: l.map Prod.fst) :=
  (btreeInsert_perm k v l hk).map Prod.fst

/-- Folding `BTreeMap` inserts over pairwise-distinct keys permutes the input. -/
theorem foldl_btreeInsert_perm :
    ∀ (l m : List (String × String)),
      (l.map Prod.fst ++ m.map Prod.fst).Nodup →
      (l.foldl (fun acc q => btreeInsert q.1 q.2 acc) m).Perm (l ++ m) := by
  intro l
  induction l with
  | nil => intro m _; simp
  | cons x xs ih =>
    intro m hnd
    rw [List.foldl_cons]
    have hxm : x.1 ∉ m.map Prod.fst := by
      simp only [List.map_cons, List.cons_append, List.nodup_cons, List.mem_append] at hnd
      tauto
    have hkeysins : ((btreeInsert x.1 x.2 m).map Prod.fst).Perm (x.1 :: m.map Prod.fst) :=
      keys_btreeInsert_perm x.1 x.2 m hxm
    have hnd' : (xs.map Prod.fst ++ (btreeInsert x.1 x.2 m).map Prod.fst).Nodup := by
      have hp1 : (xs.map Prod.fst ++ (btreeInsert x.1 x.2 m).map Prod.fst).Perm
          (xs.map Prod.fst ++ (x.1 :: m.map Prod.fst)) :=
        List.Perm.append_left _ hkeysins
      have hp2 : (xs.map Prod.fst ++ (x.1 :: m.map Prod.fst)).Perm
          (x.1 :: (xs.map Prod.fst ++ m.map Prod.fst)) := List.perm_middle
      refine (hp1.trans hp2).nodup_iff.mpr ?_
      simpa using hnd
    have hperm1 : (xs.foldl (fun acc q => btreeInsert q.1 q.2 acc)
        (btreeInsert x.1 x.2 m)).Perm (xs ++ btreeInsert x.1 x.2 m) := ih _ hnd'
    have hperm2 : (xs ++ btreeInsert x.1 x.2 m).Perm (xs ++ x :: m) :=
      List.Perm.append_left xs (btreeInsert_perm x.1 x.2 m hxm)
    have hperm3 : (xs ++ x :: m).Perm (x :: (xs ++ m)) := List.perm_middle
    exact hperm1.trans (hperm2.trans hperm3)

theorem foldl_btreeInsert_sorted :
    ∀ (l m : List (String × String)), SortedKeys m →
      SortedKeys (l.foldl (fun acc q => btreeInsert q.1 q.2 acc) m) := by
  intro l
  induction l with
  | nil => intro m h; exact h
  | cons x xs ih =>
    intro m h
    rw [List.foldl_cons]
    exact ih _ (sortedKeys_btreeInsert x.1 x.2 m h)

/-- Inserting an empty-valued fresh key does not change the filtered entries. -/
theorem filter_btreeInsert_empty (k : String) (l : List (String × String))
    (hk : k ∉ l.map Prod.fst) :
    (btreeInsert k "" l).filter (fun p => !(p.2 == "")) =
      l.filter (fun p => !(p.2 == "")) := by
  induction l with
  | nil => simp [btreeInsert]
  | cons hd rest ih =>
    simp only [List.map_cons, List.mem_cons] at hk
    push_neg at hk
    obtain ⟨hk1, hk2⟩ := hk
    unfold btreeInsert
    by_cases h1 : k < hd.1
    · rw [if_pos h1]
      simp [List.filter_cons]
    · rw [if_neg h1, if_neg hk1]
      simp only [List.filter_cons]
      rw [ih hk2]

/-! ## The claims -/

/-- C1: for every UTF-8 string `s` (shorter than ~100KB, modelled by its
byte list) and a provider configured with a matching RSA key pair (same
modulus of at least 12 bytes, and the public exponent inverts the private
one on every residue), `decrypt_with_public_key (encrypt_with_private_key s)`
returns `s`. -/
theorem C1_rsa_roundtrip (p : RsaCryptoProvider) (priv : RsaPrivateKey)
    (pub : RsaPublicKey) (data : List Nat)
    (hpriv : p.private_key = some priv) (hpub : p.public_key = some pub)
    (hnn : pub.n = priv.n)
    (hb : ∀ b ∈ data, b < 256) (hutf8 : isValidUtf8 data = true)
    (hlen : data.length < 100000)
    (hks : 12 ≤ keySize priv.n)
    (hinv : ∀ m, m < priv.n → modpow (modpow m priv.d priv.n) pub.e priv.n = m) :
    (encrypt_with_private_key p data).bind (decrypt_with_public_key p) = .ok data := by
  obtain ⟨ct, henc, hdec, hct⟩ :=
    raw_encrypt_decrypt p priv pub data hpriv hpub hnn hb hks hinv
  have h1 : encrypt_with_private_key p data = .ok (b64UrlEncode ct) := by
    unfold encrypt_with_private_key
    rw [henc]
    rfl
  rw [h1]
  show decrypt_with_public_key p (b64UrlEncode ct) = .ok data
  simp only [decrypt_with_public_key, b64UrlDecode_encode ct hct, okBind, hdec, hutf8,
    if_true]

/-- Witness for C1: the concrete squarefree 64-byte key pair and the bytes
of "abc". -/
theorem C1_rsa_roundtrip_witness :
    (encrypt_with_private_key ⟨some ⟨wN, wD⟩, some ⟨wN, wE⟩, none⟩ [97, 98, 99]).bind
      (decrypt_with_public_key ⟨some ⟨wN, wD⟩, some ⟨wN, wE⟩, none⟩) =
      .ok [97, 98, 99] :=
  C1_rsa_roundtrip _ ⟨wN, wD⟩ ⟨wN, wE⟩ _ rfl rfl rfl (by decide) (by decide) (by decide)
    (by decide) wKey_inversion

set_option maxRecDepth 1000000 in
/-- C2 counterexample: on the very same matching key pair, the sign/verify
round trip yields `false`, not `true`, already for `s = s2 = "abc"`. -/
theorem C2_roundtrip_counterexample :
    (sign ⟨some ⟨wN, wD⟩, some ⟨wN, wE⟩, none⟩ [97, 98, 99]).bind
      (verify ⟨some ⟨wN, wD⟩, some ⟨wN, wE⟩, none⟩ [97, 98, 99]) = .ok false := by
  decide

/-- C2 (amended): for every pair of byte strings (equal or not) and every
provider whose signing key is the private half of a matching key pair of at
least 62 bytes, `verify s (sign s2)` returns `false`: `sign` embeds the
19-byte DigestInfo header plus the SHA-256 of the MD5-hex of the data, while
`verify` expects the bare SHA-256 of the data, so no signature produced by
`sign` is ever accepted by `verify`. -/
theorem C2_sign_verify_never_true (p : RsaCryptoProvider) (priv : RsaPrivateKey)
    (pub : RsaPublicKey) (data data2 : List Nat)
    (hsel : p.sign_private_key.or p.private_key = some priv)
    (hpub : p.public_key = some pub) (hnn : pub.n = priv.n)
    (hks : 62 ≤ keySize priv.n)
    (hinv : ∀ m, m < priv.n → modpow (modpow m priv.d priv.n) pub.e priv.n = m) :
    (sign p data2).bind (verify p data) = .ok false :=
  sign_verify_false p priv pub data data2 hsel hpub hnn hks hinv

/-- Witness for the amended C2 at distinct concrete strings "a" and "b". -/
theorem C2_sign_verify_never_true_witness :
    (sign ⟨some ⟨wN, wD⟩, some ⟨wN, wE⟩, none⟩ [98]).bind
      (verify ⟨some ⟨wN, wD⟩, some ⟨wN, wE⟩, none⟩ [97]) = .ok false :=
  C2_sign_verify_never_true _ ⟨wN, wD⟩ ⟨wN, wE⟩ [97] [98] rfl rfl rfl (by decide)
    wKey_inversion

/-- C3: encryption is deterministic — the ciphertext is a function of the
private key and the plaintext alone (the embedding is a pure function of
the provider and input because the source introduces no randomness: the
padding filler is the fixed constant `0xFF`), so two providers agreeing on
the private key produce byte-identical ciphertext, and in particular two
calls on one provider do. -/
theorem C3_encrypt_deterministic (p q : RsaCryptoProvider) (data : List Nat)
    (h : p.private_key = q.private_key) :
    encrypt_with_private_key p data = encrypt_with_private_key q data := by
  unfold encrypt_with_private_key raw_encrypt_with_private_key
  rw [h]

/-- Witness for C3: providers differing in public and signing keys. -/
theorem C3_encrypt_deterministic_witness :
    encrypt_with_private_key ⟨some ⟨wN, wD⟩, some ⟨wN, wE⟩, none⟩ [1, 2, 3] =
      encrypt_with_private_key ⟨some ⟨wN, wD⟩, none, some ⟨5, 7⟩⟩ [1, 2, 3] :=
  C3_encrypt_deterministic _ _ [1, 2, 3] rfl

/-- C4: with a private key whose modulus is `k` bytes (`k ≥ 12`), a
plaintext of exactly `k − 11` bytes encrypts to exactly one `k`-byte block
and a plaintext of `k − 10` bytes to exactly two `k`-byte blocks (before
base64). -/
theorem C4_block_boundary (p : RsaCryptoProvider) (key : RsaPrivateKey) (k : Nat)
    (hpriv : p.private_key = some key) (hk : keySize key.n = k) (hks : 12 ≤ k)
    (data1 data2 : List Nat)
    (h1 : data1.length = k - 11) (h2 : data2.length = k - 10) :
    (raw_encrypt_with_private_key p data1).map List.length = .ok k ∧
    (raw_encrypt_with_private_key p data2).map List.length = .ok (2 * k) := by
  have hn0 : 0 < key.n := by
    rcases Nat.eq_zero_or_pos key.n with h | h
    · rw [h, keySize_zero] at hk; omega
    · exact h
  have hn2 : key.n < 256 ^ k := by rw [← hk]; exact lt_keySize_pow key.n
  have hchunklen : ∀ chunk : List Nat, (encryptChunk k key.d key.n chunk).length = k :=
    fun chunk => (encryptChunk_spec k key.d key.n chunk (by omega) hn0 (le_of_lt hn2)).1
  constructor
  · unfold raw_encrypt_with_private_key
    rw [hpriv]
    show Except.map List.length (.ok (((splitChunks (keySize key.n - 11) data1).map
      (encryptChunk (keySize key.n) key.d key.n)).flatten)) = .ok k
    rw [hk]
    rw [splitChunks_eq_single (k - 11) data1 (by
        intro hnil
        rw [hnil] at h1
        simp at h1
        omega) (by omega)]
    simp [hchunklen]
  · unfold raw_encrypt_with_private_key
    rw [hpriv]
    show Except.map List.length (.ok (((splitChunks (keySize key.n - 11) data2).map
      (encryptChunk (keySize key.n) key.d key.n)).flatten)) = .ok (2 * k)
    rw [hk, splitChunks_eq_two (k - 11) data2 (by omega) (by omega) (by omega),
      exceptMapOk]
    congr 1
    simp only [List.map_cons, List.map_nil, List.flatten_cons, List.flatten_nil,
      List.length_append, List.length_nil, hchunklen]
    omega

/-- Witness for C4: a 12-byte modulus, plaintexts of 1 and 2 bytes. -/
theorem C4_block_boundary_witness :
    (raw_encrypt_with_private_key ⟨some ⟨256 ^ 11, 3⟩, none, none⟩ [5]).map
      List.length = .ok 12 ∧
    (raw_encrypt_with_private_key ⟨some ⟨256 ^ 11, 3⟩, none, none⟩ [5, 6]).map
      List.length = .ok (2 * 12) :=
  C4_block_boundary _ ⟨256 ^ 11, 3⟩ 12 rfl (by decide) (by decide) [5] [5, 6]
    (by decide) (by decide)

/-- C5: in the request pipeline, when the response's `data` field is a
string and `decrypt_with_public_key` on it fails, `execute_request` returns
the raw (undecrypted) response value unchanged rather than an error. The
crypto provider is a trait object, so the decryption function (and the
external `serde_json` parser) are parameters. -/
theorem C5_decrypt_fallback (decrypt : String → Except String String)
    (parseJson : String → Except String JValue) (response : JValue) (s e : String)
    (hdata : jget response "data" = some (.str s))
    (hfail : decrypt s = .error e) :
    execute_request_decrypt_step decrypt parseJson response = .ok response := by
  unfold execute_request_decrypt_step
  rw [hdata]
  show (match decrypt s with
    | Except.ok decrypted => parseJson decrypted
    | Except.error _ => Except.ok response) = Except.ok response
  rw [hfail]

/-- Witness for C5 at a concrete response object and failing decryptor. -/
theorem C5_decrypt_fallback_witness :
    execute_request_decrypt_step (fun _ => .error "bad key") (fun _ => .ok .null)
      (.obj [("code", .num 0), ("data", .str "x")]) =
      .ok (.obj [("code", .num 0), ("data", .str "x")]) :=
  C5_decrypt_fallback _ _ _ "x" "bad key" rfl rfl

/-- C6 counterexample: a reachable decrypted window whose byte 0 is nonzero
(5) while byte 1 is `0x01`. The code scans for the separator and returns
`[7]`; the claim's description (byte 0 must be `0x00` for the scan) predicts
the fallback, which returns the window unchanged. -/
theorem C6_strip_counterexample :
    raw_decrypt_with_public_key ⟨none, some ⟨6 * 256 ^ 11, 1⟩, none⟩
      [5, 1, 255, 255, 255, 255, 255, 255, 255, 255, 0, 7] = .ok [7] ∧
    specStripPaddingClaim [5, 1, 255, 255, 255, 255, 255, 255, 255, 255, 0, 7] =
      [5, 1, 255, 255, 255, 255, 255, 255, 255, 255, 0, 7] := by
  decide

/-- C6 (amended): per decrypted `k`-byte window, the code checks only byte 1
(byte 0 is not examined): if byte 1 is `0x01` or `0x02`, the chunk plaintext
is everything after the first `0x00` separator found scanning from index 2;
if no such structure is found, the fallback skips leading zero bytes; the
whole decryption never produces an error once the public key is set. -/
theorem C6_strip_amended (p : RsaCryptoProvider) (pub : RsaPublicKey)
    (encrypted_data : List Nat)
    (hpub : p.public_key = some pub) (h11 : 11 ≤ keySize pub.n) :
    raw_decrypt_with_public_key p encrypted_data =
      .ok (((splitChunks (keySize pub.n) encrypted_data).map fun c =>
        specStripPaddingAmended (leftPad (keySize pub.n)
          (toBytesBE (modpow (fromBytesBE c) pub.e pub.n)))).flatten) := by
  have hn0 : 0 < pub.n := by
    rcases Nat.eq_zero_or_pos pub.n with h | h
    · rw [h, keySize_zero] at h11; omega
    · exact h
  have hn2 : pub.n < 256 ^ keySize pub.n := lt_keySize_pow pub.n
  unfold raw_decrypt_with_public_key
  rw [hpub]
  show Except.ok (((splitChunks (keySize pub.n) encrypted_data).map
    (decryptChunk (keySize pub.n) pub.e pub.n)).flatten) = _
  congr 2
  apply List.map_congr_left
  intro c _
  unfold decryptChunk
  apply stripPadding_eq_amended
  have hlt : modpow (fromBytesBE c) pub.e pub.n < 256 ^ keySize pub.n :=
    lt_of_lt_of_le (modpow_lt _ _ _ hn0) (le_of_lt hn2)
  rw [(leftPad_toBytesBE_spec (keySize pub.n) _ (by omega) hlt).1]
  exact h11

/-- Witness for the amended C6 at the concrete window from the
counterexample. -/
theorem C6_strip_amended_witness :
    raw_decrypt_with_public_key ⟨none, some ⟨6 * 256 ^ 11, 1⟩, none⟩
      [5, 1, 255, 255, 255, 255, 255, 255, 255, 255, 0, 7] =
      .ok (((splitChunks (keySize (6 * 256 ^ 11))
        [5, 1, 255, 255, 255, 255, 255, 255, 255, 255, 0, 7]).map fun c =>
        specStripPaddingAmended (leftPad (keySize (6 * 256 ^ 11))
          (toBytesBE (modpow (fromBytesBE c) 1 (6 * 256 ^ 11))))).flatten) :=
  C6_strip_amended ⟨none, some ⟨6 * 256 ^ 11, 1⟩, none⟩ ⟨6 * 256 ^ 11, 1⟩
    [5, 1, 255, 255, 255, 255, 255, 255, 255, 255, 0, 7] rfl (by decide)

/-- C7: `sign data` computes MD5 of the data, renders it as lowercase hex,
computes SHA-256 of that hex string's bytes, prepends the 19-byte SHA-256
DigestInfo header, RSA-signs with unprefixed PKCS#1 v1.5 padding using the
dedicated signing key when configured (else the main private key), and
returns standard base64; with a real-size key (modulus ≥ 62 bytes) it fails
exactly when neither signing key nor private key is set. -/
theorem C7_sign_spec (p : RsaCryptoProvider) (data : List Nat) :
    (p.sign_private_key = none → p.private_key = none →
      sign p data = .error "Neither sign_private_key nor private_key is set") ∧
    (∀ key, p.sign_private_key = some key → 62 ≤ keySize key.n →
      sign p data = .ok (signSpecFormula key data)) ∧
    (∀ key, p.sign_private_key = none → p.private_key = some key →
      62 ≤ keySize key.n → sign p data = .ok (signSpecFormula key data)) := by
  refine ⟨?_, ?_, ?_⟩
  · intro h1 h2
    unfold sign
    rw [h1, h2]
    rfl
  · intro key h1 hks
    apply sign_of_selected p key data _ hks
    rw [h1]
    rfl
  · intro key h1 h2 hks
    apply sign_of_selected p key data _ hks
    rw [h1, h2]
    rfl

/-- Witness for C7: no key at all, a dedicated signing key taking
precedence over the transport key, and the private-key fallback. -/
theorem C7_sign_spec_witness :
    sign ⟨none, none, none⟩ [97] =
      .error "Neither sign_private_key nor private_key is set" ∧
    sign ⟨some ⟨wN, wD⟩, none, some ⟨256 ^ 63, 3⟩⟩ [97] =
      .ok (signSpecFormula ⟨256 ^ 63, 3⟩ [97]) ∧
    sign ⟨some ⟨256 ^ 63, 5⟩, none, none⟩ [97] =
      .ok (signSpecFormula ⟨256 ^ 63, 5⟩ [97]) :=
  ⟨(C7_sign_spec ⟨none, none, none⟩ [97]).1 rfl rfl,
   (C7_sign_spec ⟨some ⟨wN, wD⟩, none, some ⟨256 ^ 63, 3⟩⟩ [97]).2.1 ⟨256 ^ 63, 3⟩ rfl
     (by decide),
   (C7_sign_spec ⟨some ⟨256 ^ 63, 5⟩, none, none⟩ [97]).2.2 ⟨256 ^ 63, 5⟩ rfl rfl
     (by decide)⟩

/-- C8: the canonical sign string is insertion-order independent and
ignores empty values: folding the same fields into the `BTreeMap` in any
two orders (with pairwise-distinct keys) yields the same canonical string,
and appending a fresh field with an empty value leaves it unchanged. -/
theorem C8_canonical_string (l1 l2 : List (String × String)) (k : String)
    (hperm : l1.Perm l2) (hnd : (l1.map Prod.fst).Nodup)
    (hk : k ∉ l1.map Prod.fst) :
    canonicalSignString (l1.foldl (fun m q => btreeInsert q.1 q.2 m) []) =
      canonicalSignString (l2.foldl (fun m q => btreeInsert q.1 q.2 m) []) ∧
    canonicalSignString ((l1 ++ [(k, "")]).foldl (fun m q => btreeInsert q.1 q.2 m) []) =
      canonicalSignString (l1.foldl (fun m q => btreeInsert q.1 q.2 m) []) := by
  have hnd2 : (l2.map Prod.fst).Nodup := ((hperm.map Prod.fst).nodup_iff).mp hnd
  have hp1 : (l1.foldl (fun m q => btreeInsert q.1 q.2 m) []).Perm l1 := by
    have := foldl_btreeInsert_perm l1 [] (by simpa using hnd)
    simpa using this
  have hp2 : (l2.foldl (fun m q => btreeInsert q.1 q.2 m) []).Perm l2 := by
    have := foldl_btreeInsert_perm l2 [] (by simpa using hnd2)
    simpa using this
  have hs1 : SortedKeys (l1.foldl (fun m q => btreeInsert q.1 q.2 m) []) :=
    foldl_btreeInsert_sorted l1 [] (by simp [SortedKeys])
  have hs2 : SortedKeys (l2.foldl (fun m q => btreeInsert q.1 q.2 m) []) :=
    foldl_btreeInsert_sorted l2 [] (by simp [SortedKeys])
  constructor
  · have hmm : (l1.foldl (fun m q => btreeInsert q.1 q.2 m) []).Perm
        (l2.foldl (fun m q => btreeInsert q.1 q.2 m) []) :=
      hp1.trans (hperm.trans hp2.symm)
    haveI : IsAntisymm (String × String) (fun a b => a.1 < b.1) :=
      ⟨fun a b h1 h2 => absurd (lt_trans h1 h2) (lt_irrefl _)⟩
    rw [List.eq_of_perm_of_sorted hmm hs1 hs2]
  · rw [List.foldl_append]
    show canonicalSignString (btreeInsert k "" (l1.foldl
      (fun m q => btreeInsert q.1 q.2 m) [])) = _
    have hknot : k ∉ (l1.foldl (fun m q => btreeInsert q.1 q.2 m) []).map Prod.fst := by
      intro hmem
      exact hk ((hp1.map Prod.fst).mem_iff.mp hmem)
    unfold canonicalSignString build_sign_string
    rw [filter_btreeInsert_empty k _ hknot]

/-- Witness for C8: the withdraw fields in two insertion orders, plus an
empty memo. -/
theorem C8_canonical_string_witness :
    canonicalSignString ([("symbol", "ETH"), ("amount", "0.1"), ("request_id", "R1")].foldl
      (fun m q => btreeInsert q.1 q.2 m) []) =
      canonicalSignString ([("request_id", "R1"), ("symbol", "ETH"), ("amount", "0.1")].foldl
        (fun m q => btreeInsert q.1 q.2 m) []) ∧
    canonicalSignString (([("symbol", "ETH"), ("amount", "0.1"), ("request_id", "R1")] ++
        [("memo", "")]).foldl (fun m q => btreeInsert q.1 q.2 m) []) =
      canonicalSignString ([("symbol", "ETH"), ("amount", "0.1"), ("request_id", "R1")].foldl
        (fun m q => btreeInsert q.1 q.2 m) []) :=
  C8_canonical_string [("symbol", "ETH"), ("amount", "0.1"), ("request_id", "R1")]
    [("request_id", "R1"), ("symbol", "ETH"), ("amount", "0.1")] "memo"
    (by decide) (by decide) (by decide)

/-- C9 counterexample: on a signature that is not valid base64, `verify`
returns an error, not the boolean `false`. -/
theorem C9_verify_counterexample :
    verify ⟨none, some ⟨6 * 256 ^ 11, 1⟩, none⟩ [97] [33, 33, 33] =
      .error "Failed to decode signature: Invalid padding" := by
  decide

/-- C9 (amended): when the base64 decoding of the signature succeeds,
`verify` never errors — in particular a decoded signature of the wrong
length yields `Ok(false)` — but a signature that fails base64 decoding
yields an error (propagated), not `false`. -/
theorem C9_verify_behavior (p : RsaCryptoProvider) (pub : RsaPublicKey)
    (data sig : List Nat) (hpub : p.public_key = some pub) :
    (∀ bytes, b64StdDecode sig = .ok bytes → ∃ b, verify p data sig = .ok b) ∧
    (∀ bytes, b64StdDecode sig = .ok bytes → bytes.length ≠ keySize pub.n →
      verify p data sig = .ok false) ∧
    (∀ e, b64StdDecode sig = .error e →
      verify p data sig = .error ("Failed to decode signature: " ++ e)) := by
  refine ⟨?_, ?_, ?_⟩
  · intro bytes hdec
    unfold verify
    rw [hpub, hdec]
    exact ⟨rsaPkcs1v15VerifyRaw pub (sha256 data) bytes, rfl⟩
  · intro bytes hdec hlen
    unfold verify
    rw [hpub, hdec]
    show Except.ok (rsaPkcs1v15VerifyRaw pub (sha256 data) bytes) = .ok false
    congr 1
    simp only [rsaPkcs1v15VerifyRaw]
    rw [if_pos (Or.inl hlen)]
  · intro e hdec
    unfold verify
    rw [hpub, hdec]

/-- Witness for the amended C9: a decodable 3-byte signature (both general
and wrong-length cases) and the invalid-base64 error case. -/
theorem C9_verify_behavior_witness :
    (∃ b, verify ⟨none, some ⟨6 * 256 ^ 11, 1⟩, none⟩ [97] (b64StdEncode [1, 2, 3]) =
      .ok b) ∧
    verify ⟨none, some ⟨6 * 256 ^ 11, 1⟩, none⟩ [97] (b64StdEncode [1, 2, 3]) =
      .ok false ∧
    verify ⟨none, some ⟨6 * 256 ^ 11, 1⟩, none⟩ [97] [33] =
      .error ("Failed to decode signature: " ++ "Invalid padding") :=
  ⟨(C9_verify_behavior _ ⟨6 * 256 ^ 11, 1⟩ [97] _ rfl).1 [1, 2, 3] (by decide),
   (C9_verify_behavior _ ⟨6 * 256 ^ 11, 1⟩ [97] _ rfl).2.1 [1, 2, 3] (by decide)
     (by decide),
   (C9_verify_behavior _ ⟨6 * 256 ^ 11, 1⟩ [97] _ rfl).2.2 "Invalid padding" (by decide)⟩

/-- C10: response validation treats an absent `code` field, or a string
`code` that does not parse as an `i32`, as `-1`; and both
`validate_response` and `validate_response_raw` return an `ApiError`
carrying exactly the computed code whenever it is nonzero, so the `data`
field is only reached when the code parses (from JSON string or integer) to
exactly `0`. -/
theorem C10_validate_code (decrypt : String → Except String String)
    (parseJson : String → Except String JValue)
    {T : Type} (parseStr : String → Except String T)
    (parseVal : JValue → Except String T) (response : JValue) :
    (jget response "code" = none → response_code response = -1) ∧
    (∀ s, jget response "code" = some (.str s) → parseI32 s = none →
      response_code response = -1) ∧
    (response_code response ≠ 0 →
      validate_response_raw decrypt parseJson response =
        .error (.api (response_code response) (response_msg response)) ∧
      validate_response decrypt parseStr parseVal response =
        .error (.api (response_code response) (response_msg response))) := by
  refine ⟨?_, ?_, ?_⟩
  · intro hnone
    unfold response_code
    rw [hnone]
  · intro s hsome hparse
    unfold response_code
    rw [hsome]
    show (match (jAsStr (.str s)).bind parseI32 with
      | some i => i
      | none =>
        match (jAsI64 (.str s)).map i64AsI32 with
        | some i => i
        | none => -1) = -1
    simp only [jAsStr, jAsI64, Option.some_bind, hparse]
    rfl
  · intro hcode
    constructor
    · unfold validate_response_raw
      rw [if_pos hcode]
    · unfold validate_response
      rw [if_pos hcode]

/-- Witness for C10: a response without `code`, and one whose `code` is the
non-numeric string "xx". -/
theorem C10_validate_code_witness :
    response_code (.obj [("msg", .str "boom")]) = -1 ∧
    response_code (.obj [("code", .str "xx")]) = -1 ∧
    validate_response_raw (fun _ => .error "none") (fun _ => .ok .null)
      (.obj [("msg", .str "boom")]) = .error (.api (-1) "boom") :=
  ⟨(C10_validate_code (fun _ => .error "none") (fun _ => .ok .null)
      (fun _ => .ok JValue.null) (fun v => .ok v) (.obj [("msg", .str "boom")])).1 rfl,
   (C10_validate_code (fun _ => .error "none") (fun _ => .ok .null)
      (fun _ => .ok JValue.null) (fun v => .ok v) (.obj [("code", .str "xx")])).2.1
     "xx" rfl rfl,
   by
     have := (C10_validate_code (fun _ => .error "none") (fun _ => .ok JValue.null)
       (fun _ => .ok JValue.null) (fun v => .ok v) (.obj [("msg", .str "boom")])).2.2
       (by decide)
     exact this.1⟩

end ChainUpSdk
